import Mathlib

/-!
Verification of the Brazilian checkers (damas) engine, AI and session
coordinator.  The TypeScript sources (`src/engine/board.ts`,
`src/engine/moves.ts`, `src/engine/ai.ts`, `src/server/socketHandler.ts`)
are shallowly embedded below:

* a TS `(Piece | null)[][]` 8×8 board is modelled as a total map
  `Position → Option Piece`; reading `board[r][c]` is function application,
  the in-place writes that the code always performs on a fresh clone are
  modelled as functional update, and `cloneBoard` is the identity;
* the recursive capture search `getCapturesForPiece` terminates because
  every recursive call adds a fresh valid square to `capturedSoFar` (at
  most 64 squares exist), and the king scanning loop leaves the board
  after at most 8 steps from a valid square; both recursions are written
  with an explicit fuel argument larger than those bounds (64 and 16), so
  the fuelled functions agree with the TS code on every reachable call;
* JS numbers appearing in the engine are integers; the `±Infinity`
  sentinels of the alpha-beta search are modelled by the type `XInt`
  (integers with two infinities);
* the two `Math.random()` draws of `getBestMove` are modelled as
  non-negative integer fractions `r1n/r1d` and `r2n/r2d` passed as
  arguments (a draw lies in `[0,1)` exactly when the numerator is smaller
  than the denominator), and the literal `0.3` as the rational `3/10`.
-/

namespace Damas

inductive Player where
  | white
  | black
  deriving DecidableEq, Repr

inductive PieceType where
  | pawn
  | king
  deriving DecidableEq, Repr

structure Piece where
  player : Player
  type : PieceType
  deriving DecidableEq, Repr

structure Position where
  row : Int
  col : Int
  deriving DecidableEq, Repr

structure Move where
  «from» : Position
  «to» : Position
  captures : List Position
  isPromotion : Bool
  deriving DecidableEq, Repr

inductive AIDifficulty where
  | easy
  | medium
  | hard
  deriving DecidableEq, Repr

/-- `BOARD_SIZE` from `engine/types.ts`. -/
def BOARD_SIZE : Int := 8

/-- A TS `(Piece | null)[][]` board, as the total map it denotes. -/
def Board : Type := Position → Option Piece

/-- `getOpponent` from `engine/board.ts`. -/
def getOpponent (player : Player) : Player :=
  if player = Player.white then Player.black else Player.white

/-- `isValidPosition` from `engine/board.ts`. -/
def isValidPosition (pos : Position) : Bool :=
  decide (0 ≤ pos.row) && decide (pos.row < BOARD_SIZE) &&
    decide (0 ≤ pos.col) && decide (pos.col < BOARD_SIZE)

/-- `isDarkSquare` from `engine/board.ts`. -/
def isDarkSquare (pos : Position) : Bool :=
  decide ((pos.row + pos.col) % 2 = 1)

/-- `positionsEqual` from `engine/board.ts`. -/
def positionsEqual (a b : Position) : Bool :=
  decide (a.row = b.row) && decide (a.col = b.col)

/-- `cloneBoard` from `engine/board.ts`: a deep copy denotes the same map. -/
def cloneBoard (board : Board) : Board := board

/-- `getPieceAt` from `engine/board.ts`. -/
def getPieceAt (board : Board) (pos : Position) : Option Piece :=
  if isValidPosition pos then board pos else none

/-- `setPieceAt` from `engine/board.ts` (write on a clone, as an update). -/
def setPieceAt (board : Board) (pos : Position) (piece : Option Piece) : Board :=
  if isValidPosition pos then (fun q => if q = pos then piece else board q) else board

/-- The row-major traversal order of the nested `for` loops over the grid. -/
def allPositions : List Position :=
  (List.range 8).flatMap fun r => (List.range 8).map fun (c : Nat) => ⟨(r : Int), (c : Int)⟩

/-- `createInitialBoard` from `engine/board.ts`: white pawns on rows 0–2,
black pawns on rows 5–7, dark squares only. -/
def createInitialBoard : Board := fun q =>
  if isValidPosition q ∧ (q.row + q.col) % 2 = 1 then
    if q.row < 3 then some ⟨Player.white, PieceType.pawn⟩
    else if q.row > 4 then some ⟨Player.black, PieceType.pawn⟩
    else none
  else none

/-- `getPlayerPieces` from `engine/board.ts` (row-major direct indexing). -/
def getPlayerPieces (board : Board) (player : Player) : List Position :=
  allPositions.filter fun q =>
    match board q with
    | some piece => decide (piece.player = player)
    | none => false

/-- `countPieces` from `engine/board.ts`. -/
def countPieces (board : Board) (player : Player) : Nat :=
  (getPlayerPieces board player).length

/-- `DIRECTIONS` from `engine/moves.ts`. -/
def DIRECTIONS : List Position :=
  [⟨-1, -1⟩, ⟨-1, 1⟩, ⟨1, -1⟩, ⟨1, 1⟩]

/-- `shouldPromote` from `engine/moves.ts`. -/
def shouldPromote (pos : Position) (player : Player) : Bool :=
  if player = Player.white then decide (pos.row = BOARD_SIZE - 1)
  else decide (pos.row = 0)

/-- `getDirections` from `engine/moves.ts`. -/
def getDirections (piece : Piece) : List Position :=
  if piece.type = PieceType.king then DIRECTIONS
  else if piece.player = Player.white then [⟨1, -1⟩, ⟨1, 1⟩]
  else [⟨-1, -1⟩, ⟨-1, 1⟩]

/-- One direction of the pawn branch of `getCapturesForPiece`
(`engine/moves.ts`); `go` is the recursive call on the updated board. -/
def pawnJump (go : Board → Position → Piece → List Position → List Move)
    (board : Board) (pos : Position) (piece : Piece) (capturedSoFar : List Position)
    (dir : Position) : List Move :=
  let enemyPos : Position := ⟨pos.row + dir.row, pos.col + dir.col⟩
  let landPos : Position := ⟨pos.row + dir.row * 2, pos.col + dir.col * 2⟩
  if isValidPosition enemyPos ∧ isValidPosition landPos then
    if capturedSoFar.any (fun c => positionsEqual c enemyPos) then []
    else
      match getPieceAt board enemyPos, getPieceAt board landPos with
      | some enemyPiece, none =>
        if enemyPiece.player ≠ piece.player then
          let newCaptured := capturedSoFar ++ [enemyPos]
          let willPromote := shouldPromote landPos piece.player
          let movedPiece : Piece :=
            if willPromote then ⟨piece.player, PieceType.king⟩ else piece
          let tempBoard :=
            setPieceAt (setPieceAt (setPieceAt (cloneBoard board) pos none) enemyPos none)
              landPos (some movedPiece)
          let continuedCaptures := go tempBoard landPos movedPiece newCaptured
          if continuedCaptures.length > 0 then
            continuedCaptures.map fun continued =>
              { «from» := pos, «to» := continued.«to»,
                captures := newCaptured ++ continued.captures.filter
                  (fun c => ! capturedListHas newCaptured c),
                isPromotion := continued.isPromotion || willPromote }
          else
            [{ «from» := pos, «to» := landPos, captures := newCaptured,
               isPromotion := willPromote }]
        else []
      | _, _ => []
  else []
where
  /-- `newCaptured.some(nc => positionsEqual(nc, c))`. -/
  capturedListHas (l : List Position) (c : Position) : Bool :=
    l.any fun nc => positionsEqual nc c

/-- The king scanning `while` loop of `getCapturesForPiece`
(`engine/moves.ts`), one direction; `dfuel` bounds the scan (a diagonal
leaves the board after at most 8 steps from a valid square). -/
def kingScan (go : Board → Position → Piece → List Position → List Move)
    (board : Board) (pos : Position) (piece : Piece) (capturedSoFar : List Position)
    (dir : Position) : Nat → Int → Option Position → List Move
  | 0, _, _ => []
  | dfuel + 1, distance, foundEnemy =>
    let checkPos : Position := ⟨pos.row + dir.row * distance, pos.col + dir.col * distance⟩
    if isValidPosition checkPos then
      match getPieceAt board checkPos with
      | some checkPiece =>
        if foundEnemy.isSome then []
        else if checkPiece.player = piece.player then []
        else if capturedSoFar.any (fun c => positionsEqual c checkPos) then
          kingScan go board pos piece capturedSoFar dir dfuel (distance + 1) foundEnemy
        else
          kingScan go board pos piece capturedSoFar dir dfuel (distance + 1) (some checkPos)
      | none =>
        match foundEnemy with
        | some fe =>
          let newCaptured := capturedSoFar ++ [fe]
          let tempBoard :=
            setPieceAt (setPieceAt (setPieceAt (cloneBoard board) pos none) fe none)
              checkPos (some piece)
          let continuedCaptures := go tempBoard checkPos piece newCaptured
          (if continuedCaptures.length > 0 then
            continuedCaptures.map fun continued =>
              { «from» := pos, «to» := continued.«to»,
                captures := newCaptured ++ continued.captures.filter
                  (fun c => ! pawnJump.capturedListHas newCaptured c),
                isPromotion := false }
          else
            [{ «from» := pos, «to» := checkPos, captures := newCaptured,
               isPromotion := false }])
            ++ kingScan go board pos piece capturedSoFar dir dfuel (distance + 1) foundEnemy
        | none =>
          kingScan go board pos piece capturedSoFar dir dfuel (distance + 1) foundEnemy
    else []

/-- `getCapturesForPiece` from `engine/moves.ts`, with fuel: each recursive
call consumes one unit and adds a fresh valid square to `capturedSoFar`,
so 64 units are never exhausted. -/
def getCapturesForPieceF : Nat → Board → Position → Piece → List Position → List Move
  | 0, _, _, _, _ => []
  | fuel + 1, board, pos, piece, capturedSoFar =>
    if piece.type = PieceType.pawn then
      DIRECTIONS.flatMap fun dir =>
        pawnJump (getCapturesForPieceF fuel) board pos piece capturedSoFar dir
    else
      DIRECTIONS.flatMap fun dir =>
        kingScan (getCapturesForPieceF fuel) board pos piece capturedSoFar dir 16 1 none

/-- `getCapturesForPiece` from `engine/moves.ts`. -/
def getCapturesForPiece (board : Board) (pos : Position) (piece : Piece)
    (capturedSoFar : List Position) : List Move :=
  getCapturesForPieceF 64 board pos piece capturedSoFar

/-- The king sliding `while` loop of `getNonCaptureMovesForPiece`. -/
def kingSlide (board : Board) (pos : Position) (dir : Position) :
    Nat → Position → List Move
  | 0, _ => []
  | sfuel + 1, newPos =>
    if isValidPosition newPos ∧ getPieceAt board newPos = none then
      { «from» := pos, «to» := newPos, captures := [], isPromotion := false }
        :: kingSlide board pos dir sfuel ⟨newPos.row + dir.row, newPos.col + dir.col⟩
    else []

/-- `getNonCaptureMovesForPiece` from `engine/moves.ts`. -/
def getNonCaptureMovesForPiece (board : Board) (pos : Position) (piece : Piece) :
    List Move :=
  let directions := getDirections piece
  if piece.type = PieceType.pawn then
    directions.flatMap fun dir =>
      let newPos : Position := ⟨pos.row + dir.row, pos.col + dir.col⟩
      if isValidPosition newPos ∧ getPieceAt board newPos = none then
        [{ «from» := pos, «to» := newPos, captures := [],
           isPromotion := shouldPromote newPos piece.player }]
      else []
  else
    directions.flatMap fun dir =>
      kingSlide board pos dir 16 ⟨pos.row + dir.row, pos.col + dir.col⟩

/-- `Math.max(...l)` on a non-empty list of naturals. -/
def listMax (l : List Nat) : Nat := l.foldr max 0

/-- `getMovesForPiece` from `engine/moves.ts`. -/
def getMovesForPiece (board : Board) (pos : Position) (piece : Piece) : List Move :=
  let captures := getCapturesForPiece board pos piece []
  if captures.length > 0 then
    let maxCaptures := listMax (captures.map fun c => c.captures.length)
    captures.filter fun c => decide (c.captures.length = maxCaptures)
  else
    getNonCaptureMovesForPiece board pos piece

/-- The `allCaptures` accumulator of `getAllValidMoves` (`engine/moves.ts`):
the TS loop pushes, piece by piece in row-major order, the capturing moves
of each piece; the flat-map builds exactly that list (same elements, same
order). -/
def allCapturesList (board : Board) (player : Player) : List Move :=
  (getPlayerPieces board player).flatMap fun pos =>
    match getPieceAt board pos with
    | none => []
    | some piece =>
      (getMovesForPiece board pos piece).filter fun m => decide (m.captures.length > 0)

/-- The `allMoves` accumulator of `getAllValidMoves` (`engine/moves.ts`). -/
def allMovesList (board : Board) (player : Player) : List Move :=
  (getPlayerPieces board player).flatMap fun pos =>
    match getPieceAt board pos with
    | none => []
    | some piece =>
      (getMovesForPiece board pos piece).filter fun m => decide (m.captures.length = 0)

/-- `getAllValidMoves` from `engine/moves.ts`. -/
def getAllValidMoves (board : Board) (player : Player) : List Move :=
  let allCaptures := allCapturesList board player
  let allMoves := allMovesList board player
  if allCaptures.length > 0 then
    let maxCaptures := listMax (allCaptures.map fun m => m.captures.length)
    allCaptures.filter fun m => decide (m.captures.length = maxCaptures)
  else
    allMoves

/-- `executeMove` from `engine/moves.ts`. -/
def executeMove (board : Board) (move : Move) : Board :=
  let newBoard := cloneBoard board
  match getPieceAt newBoard move.«from» with
  | none => newBoard
  | some piece =>
    let b1 := setPieceAt newBoard move.«from» none
    let b2 := move.captures.foldl (fun b capturedPos => setPieceAt b capturedPos none) b1
    let finalPiece : Piece :=
      if move.isPromotion then ⟨piece.player, PieceType.king⟩ else piece
    setPieceAt b2 move.«to» (some finalPiece)

structure GameEndResult where
  ended : Bool
  winner : Option Player
  deriving DecidableEq, Repr

/-- `checkGameEnd` from `engine/moves.ts`. -/
def checkGameEnd (board : Board) (currentPlayer : Player) : GameEndResult :=
  let opponent := getOpponent currentPlayer
  let opponentPieces := getPlayerPieces board opponent
  if opponentPieces.length = 0 then ⟨true, some currentPlayer⟩
  else if (getAllValidMoves board currentPlayer).length = 0 then ⟨true, some opponent⟩
  else ⟨false, none⟩

/-! ### The AI search engine (`engine/ai.ts`) -/

/-- JS numbers as used by the alpha-beta search: integers together with the
`-Infinity` / `Infinity` sentinels. -/
inductive XInt where
  | negInf
  | fin (n : Int)
  | posInf
  deriving DecidableEq, Repr

/-- The `<=` comparison on scores. -/
def XInt.le : XInt → XInt → Prop
  | .negInf, _ => True
  | .fin _, .negInf => False
  | .fin a, .fin b => a ≤ b
  | .fin _, .posInf => True
  | .posInf, .negInf => False
  | .posInf, .fin _ => False
  | .posInf, .posInf => True

instance : ∀ a b : XInt, Decidable (XInt.le a b)
  | .negInf, _ => isTrue trivial
  | .fin _, .negInf => isFalse id
  | .fin a, .fin b => inferInstanceAs (Decidable (a ≤ b))
  | .fin _, .posInf => isTrue trivial
  | .posInf, .negInf => isFalse id
  | .posInf, .fin _ => isFalse id
  | .posInf, .posInf => isTrue trivial

/-- The strict `<` comparison on scores. -/
def XInt.lt (a b : XInt) : Prop := ¬ XInt.le b a

instance (a b : XInt) : Decidable (XInt.lt a b) :=
  inferInstanceAs (Decidable ¬ _)

/-- `Math.max` on scores. -/
def xmax (a b : XInt) : XInt := if XInt.le a b then b else a

/-- `Math.min` on scores. -/
def xmin (a b : XInt) : XInt := if XInt.le a b then a else b

/-- `DIFFICULTY_DEPTH` from `engine/ai.ts`. -/
def DIFFICULTY_DEPTH : AIDifficulty → Nat
  | .easy => 2
  | .medium => 4
  | .hard => 6

/-- `PAWN_VALUE` from `engine/ai.ts`. -/
def PAWN_VALUE : Int := 100

/-- `KING_VALUE` from `engine/ai.ts`. -/
def KING_VALUE : Int := 300

/-- `POSITION_BONUS` from `engine/ai.ts`. -/
def POSITION_BONUS : List (List Int) :=
  [[0, 0, 0, 0, 0, 0, 0, 0],
   [0, 5, 0, 5, 0, 5, 0, 5],
   [5, 0, 10, 0, 10, 0, 5, 0],
   [0, 10, 0, 15, 0, 10, 0, 5],
   [5, 0, 10, 0, 15, 0, 10, 0],
   [0, 5, 0, 10, 0, 10, 0, 5],
   [5, 0, 5, 0, 5, 0, 5, 0],
   [0, 0, 0, 0, 0, 0, 0, 0]]

/-- `POSITION_BONUS[row][col]` for an in-range position. -/
def positionBonusAt (q : Position) : Int :=
  (POSITION_BONUS.getD q.row.toNat []).getD q.col.toNat 0

/-- `evaluateBoard` from `engine/ai.ts`. -/
def evaluateBoard (board : Board) (aiPlayer : Player) : Int :=
  let opponent := getOpponent aiPlayer
  let score := allPositions.foldl (fun score q =>
    match board q with
    | none => score
    | some piece =>
      let pieceValue := if piece.type = PieceType.king then KING_VALUE else PAWN_VALUE
      let positionBonus := positionBonusAt q
      let advancementBonus : Int :=
        if piece.type = PieceType.pawn then
          if piece.player = Player.white then q.row * 5 else (BOARD_SIZE - 1 - q.row) * 5
        else 0
      let totalValue := pieceValue + positionBonus + advancementBonus
      if piece.player = aiPlayer then score + totalValue else score - totalValue) 0
  score + (((getAllValidMoves board aiPlayer).length : Int)
    - ((getAllValidMoves board opponent).length : Int)) * 5

/-- The maximizing `for` loop of `minimax` (`engine/ai.ts`), with its
running `maxEval`, `alpha` update and `break` on `beta <= alpha`;
`f` is the recursive call at depth one less. -/
def abMaxLoop (f : Board → XInt → XInt → XInt) (board : Board) :
    List Move → XInt → XInt → XInt → XInt
  | [], _, _, maxEval => maxEval
  | move :: rest, alpha, beta, maxEval =>
    let evaluation := f (executeMove board move) alpha beta
    let maxEval' := xmax maxEval evaluation
    let alpha' := xmax alpha evaluation
    if XInt.le beta alpha' then maxEval'
    else abMaxLoop f board rest alpha' beta maxEval'

/-- The minimizing `for` loop of `minimax` (`engine/ai.ts`). -/
def abMinLoop (f : Board → XInt → XInt → XInt) (board : Board) :
    List Move → XInt → XInt → XInt → XInt
  | [], _, _, minEval => minEval
  | move :: rest, alpha, beta, minEval =>
    let evaluation := f (executeMove board move) alpha beta
    let minEval' := xmin minEval evaluation
    let beta' := xmin beta evaluation
    if XInt.le beta' alpha then minEval'
    else abMinLoop f board rest alpha beta' minEval'

/-- `minimax` from `engine/ai.ts` (alpha-beta pruned, fail-soft). -/
def minimax : Nat → Board → XInt → XInt → Bool → Player → Player → XInt
  | 0, board, _, _, _, aiPlayer, _ => .fin (evaluateBoard board aiPlayer)
  | depth + 1, board, alpha, beta, isMaximizing, aiPlayer, currentPlayer =>
    let moves := getAllValidMoves board currentPlayer
    if moves.length = 0 then
      .fin (if isMaximizing then -10000 + ((depth : Int) + 1) else 10000 - ((depth : Int) + 1))
    else if isMaximizing then
      abMaxLoop (fun nb a b => minimax depth nb a b false aiPlayer (getOpponent currentPlayer))
        board moves alpha beta .negInf
    else
      abMinLoop (fun nb a b => minimax depth nb a b true aiPlayer (getOpponent currentPlayer))
        board moves alpha beta .posInf

/-- The move-selection `for` loop of `getBestMove` (`engine/ai.ts`):
keeps the first move whose score strictly improves on `bestScore`. -/
def bestLoop (g : Move → XInt) : List Move → Option Move → XInt → Option Move
  | [], bestMove, _ => bestMove
  | move :: rest, bestMove, bestScore =>
    let score := g move
    if XInt.lt bestScore score then bestLoop g rest (some move) score
    else bestLoop g rest bestMove bestScore

/-- A placeholder for TS array indexing (always in range where used). -/
def dummyMove : Move := { «from» := ⟨0, 0⟩, «to» := ⟨0, 0⟩, captures := [], isPromotion := false }

/-- `getBestMove` from `engine/ai.ts`.  The two `Math.random()` calls of the
easy branch are modelled by the fractions `r1n/r1d` (used for
`Math.floor(Math.random() * Math.min(3, moves.length))`, computed below by
integer division, which is `Math.floor` for non-negative values) and
`r2n/r2d` (compared against `0.3 = 3/10` by cross-multiplication). -/
def getBestMove (board : Board) (player : Player) (difficulty : AIDifficulty)
    (r1n r1d r2n r2d : Nat) : Option Move :=
  let depth := DIFFICULTY_DEPTH difficulty
  let moves := getAllValidMoves board player
  if moves.length = 0 then none
  else if moves.length = 1 then some (moves.getD 0 dummyMove)
  else
    let randomIndex := r1n * (min 3 moves.length) / r1d
    if difficulty = AIDifficulty.easy ∧ r2n * 10 < r2d * 3 then
      some (moves.getD randomIndex dummyMove)
    else
      bestLoop
        (fun move => minimax (depth - 1) (executeMove board move) .negInf .posInf
          false player (getOpponent player))
        moves none .negInf

/-- Modelled from the spec: the plain, unpruned minimax value at the same
depth, with the same leaf evaluation and the same no-move scores as
`minimax`, but taking the exact max/min over all children — the reference
against which the pruned search is compared (§4.4, §8). -/
def plainMinimax : Nat → Board → Bool → Player → Player → XInt
  | 0, board, _, aiPlayer, _ => .fin (evaluateBoard board aiPlayer)
  | depth + 1, board, isMaximizing, aiPlayer, currentPlayer =>
    let moves := getAllValidMoves board currentPlayer
    if moves.length = 0 then
      .fin (if isMaximizing then -10000 + ((depth : Int) + 1) else 10000 - ((depth : Int) + 1))
    else if isMaximizing then
      (moves.map fun m =>
        plainMinimax depth (executeMove board m) false aiPlayer (getOpponent currentPlayer)).foldl
        xmax .negInf
    else
      (moves.map fun m =>
        plainMinimax depth (executeMove board m) true aiPlayer (getOpponent currentPlayer)).foldl
        xmin .posInf

/-! ### The session coordinator (`server/socketHandler.ts`) -/

inductive RoomStatus where
  | waiting
  | playing
  | ended
  deriving DecidableEq, Repr

/-- The server's `RoomState` record. -/
structure RoomState where
  id : String
  name : String
  hostId : String
  hostName : String
  guestId : Option String
  guestName : Option String
  status : RoomStatus
  board : Board
  currentPlayer : Player
  capturedWhite : Nat
  capturedBlack : Nat

namespace Server

/-- A direct in-place array write `board[r][c] = v` (the server never
guards through `setPieceAt`), as a functional update. -/
def boardSet (board : Board) (pos : Position) (piece : Option Piece) : Board :=
  fun q => if q = pos then piece else board q

/-- `createInitialBoard` from `server/socketHandler.ts`: black on rows 0–2,
white on rows 5–7 (the server's own orientation). -/
def createInitialBoard : Board := fun q =>
  if isValidPosition q ∧ (q.row + q.col) % 2 = 1 then
    if q.row < 3 then some ⟨Player.black, PieceType.pawn⟩
    else if q.row ≥ 5 then some ⟨Player.white, PieceType.pawn⟩
    else none
  else none

/-- `executeMove` from `server/socketHandler.ts` (its own simplified copy:
captures first, then the origin, promotion recomputed from the landing
row with white promoting at row 0). -/
def executeMove (board : Board) (move : Move) : Board :=
  let newBoard := cloneBoard board
  match newBoard move.«from» with
  | none => newBoard
  | some piece =>
    let b1 := move.captures.foldl (fun b capture => boardSet b capture none) newBoard
    let b2 := boardSet b1 move.«from» none
    let isPromotion :=
      (piece.player = Player.white ∧ move.«to».row = 0) ∨
        (piece.player = Player.black ∧ move.«to».row = 7)
    boardSet b2 move.«to»
      (some ⟨piece.player, if isPromotion then PieceType.king else piece.type⟩)

/-- `checkGameEnd` from `server/socketHandler.ts` (its own simplified copy:
it only counts pieces and never detects a blocked side). -/
def checkGameEnd (board : Board) (currentPlayer : Player) : GameEndResult :=
  let whitePieces :=
    (allPositions.filter fun q =>
      match board q with
      | some piece => decide (piece.player = Player.white)
      | none => false).length
  let blackPieces :=
    (allPositions.filter fun q =>
      match board q with
      | some piece => decide (piece.player = Player.black)
      | none => false).length
  if whitePieces = 0 then ⟨true, some Player.black⟩
  else if blackPieces = 0 then ⟨true, some Player.white⟩
  else ⟨false, none⟩

/-- The observable messages `socket.emit` / `socket.to(room).emit` sent by
the `make-move` handler. -/
inductive ServerEvent where
  | roomError (target : String) (message : String)
  | moveMade (roomId : String) (excluded : String) (move : Move) (board : Board)
      (nextPlayer : Player) (capturedWhite capturedBlack : Nat)
      (ended : Bool) (winner : Option Player)

/-- The wrong-turn error message of the `make-move` handler. -/
def wrongTurnMessage : String := "Não é sua vez"

/-- `rooms.get(roomId)` on the in-memory room store. -/
def lookupRoom (rooms : List (String × RoomState)) (roomId : String) : Option RoomState :=
  (rooms.find? fun e => e.1 = roomId).map fun e => e.2

/-- The in-place mutation of the stored room, as a store update. -/
def updateRoom (rooms : List (String × RoomState)) (roomId : String)
    (room : RoomState) : List (String × RoomState) :=
  rooms.map fun e => if e.1 = roomId then (e.1, room) else e

/-- The `make-move` handler of `server/socketHandler.ts`: returns the new
room store and the emitted events. -/
def handleMakeMove (rooms : List (String × RoomState)) (socketId roomId : String)
    (move : Move) : List (String × RoomState) × List ServerEvent :=
  match lookupRoom rooms roomId with
  | none => (rooms, [])
  | some room =>
    let isHost := room.hostId = socketId
    let expectedPlayer := if isHost then Player.white else Player.black
    if room.currentPlayer ≠ expectedPlayer then
      (rooms, [ServerEvent.roomError socketId wrongTurnMessage])
    else
      let newBoard := executeMove room.board move
      let nextPlayer := getOpponent room.currentPlayer
      let newCapturedWhite := room.capturedWhite +
        (if room.currentPlayer = Player.black then move.captures.length else 0)
      let newCapturedBlack := room.capturedBlack +
        (if room.currentPlayer = Player.white then move.captures.length else 0)
      let gameEnd := checkGameEnd newBoard nextPlayer
      let room' : RoomState :=
        { room with
          board := newBoard
          currentPlayer := nextPlayer
          capturedWhite := newCapturedWhite
          capturedBlack := newCapturedBlack
          status := if gameEnd.ended then RoomStatus.ended else room.status }
      (updateRoom rooms roomId room',
        [ServerEvent.moveMade roomId socketId move newBoard nextPlayer
          newCapturedWhite newCapturedBlack gameEnd.ended gameEnd.winner])

end Server

/-! ### Basic facts about positions, boards and counting -/

theorem isValidPosition_iff {q : Position} :
    isValidPosition q = true ↔ 0 ≤ q.row ∧ q.row < 8 ∧ 0 ≤ q.col ∧ q.col < 8 := by
  simp [isValidPosition, BOARD_SIZE, and_assoc]

theorem mem_allPositions {q : Position} :
    q ∈ allPositions ↔ isValidPosition q = true := by
  rw [isValidPosition_iff]
  constructor
  · intro h
    rw [allPositions, List.mem_flatMap] at h
    obtain ⟨r, hr, hm⟩ := h
    rw [List.mem_map] at hm
    obtain ⟨c, hc, he⟩ := hm
    rw [List.mem_range] at hr hc
    refine ⟨?_, ?_, ?_, ?_⟩ <;> rw [← he] <;> dsimp only <;> omega
  · rintro ⟨h1, h2, h3, h4⟩
    rw [allPositions, List.mem_flatMap]
    refine ⟨q.row.toNat, List.mem_range.mpr (by omega), ?_⟩
    rw [List.mem_map]
    refine ⟨q.col.toNat, List.mem_range.mpr (by omega), ?_⟩
    obtain ⟨row, col⟩ := q
    dsimp only at h1 h2 h3 h4 ⊢
    simp only [Position.mk.injEq]
    constructor <;> omega

theorem allPositions_nodup : allPositions.Nodup := by decide

theorem positionsEqual_iff {a b : Position} : positionsEqual a b = true ↔ a = b := by
  cases a; cases b
  simp [positionsEqual, Position.mk.injEq]

theorem getPieceAt_eq_of_valid {b : Board} {q : Position} (h : isValidPosition q = true) :
    getPieceAt b q = b q := by
  simp [getPieceAt, h]

theorem getPieceAt_valid {b : Board} {q : Position} {pc : Piece}
    (h : getPieceAt b q = some pc) : isValidPosition q = true := by
  by_contra hv
  simp [getPieceAt, hv] at h

theorem getPieceAt_setPieceAt_same {b : Board} {p : Position} {v : Option Piece}
    (hp : isValidPosition p = true) : getPieceAt (setPieceAt b p v) p = v := by
  simp [getPieceAt, setPieceAt, hp]

theorem getPieceAt_setPieceAt_other {b : Board} {p q : Position} {v : Option Piece}
    (hne : q ≠ p) : getPieceAt (setPieceAt b p v) q = getPieceAt b q := by
  by_cases hp : isValidPosition p = true <;> by_cases hq : isValidPosition q = true <;>
    simp [getPieceAt, setPieceAt, hp, hq, hne]

theorem mem_getPlayerPieces {b : Board} {player : Player} {pos : Position} :
    pos ∈ getPlayerPieces b player ↔
      ∃ pc, getPieceAt b pos = some pc ∧ pc.player = player := by
  simp only [getPlayerPieces, List.mem_filter, mem_allPositions]
  constructor
  · rintro ⟨hv, h⟩
    rcases hpc : b pos with _ | pc
    · rw [hpc] at h; simp at h
    · rw [hpc] at h
      simp only [decide_eq_true_eq] at h
      exact ⟨pc, by rw [getPieceAt_eq_of_valid hv, hpc], h⟩
  · rintro ⟨pc, hpc, hpl⟩
    have hv := getPieceAt_valid hpc
    rw [getPieceAt_eq_of_valid hv] at hpc
    exact ⟨hv, by rw [hpc]; simpa⟩

theorem le_listMax {l : List Nat} {x : Nat} (h : x ∈ l) : x ≤ listMax l := by
  induction l with
  | nil => cases h
  | cons a t ih =>
    rcases List.mem_cons.mp h with rfl | hx
    · exact Nat.le_max_left _ _
    · exact le_trans (ih hx) (Nat.le_max_right _ _)

theorem listMax_mem {l : List Nat} (h : l ≠ []) : listMax l ∈ l := by
  induction l with
  | nil => simp at h
  | cons a t ih =>
    rcases t with _ | ⟨b, t⟩
    · simp [listMax]
    · have hmem := ih (by simp)
      show max a (listMax (b :: t)) ∈ a :: b :: t
      rcases max_choice a (listMax (b :: t)) with hc | hc <;> rw [hc]
      · exact List.mem_cons_self _ _
      · exact List.mem_cons_of_mem _ hmem

/-- Updating one Bool test at a single element of a duplicate-free list
changes the filtered length by the indicator difference. -/
theorem filter_length_update {α : Type} [DecidableEq α] {l : List α} {q : α}
    (hnd : l.Nodup) (hq : q ∈ l) (f g : α → Bool)
    (hagree : ∀ x ∈ l, x ≠ q → f x = g x) :
    (l.filter f).length + (if g q then 1 else 0) =
      (l.filter g).length + (if f q then 1 else 0) := by
  induction l with
  | nil => cases hq
  | cons a t ih =>
    have hnd' := (List.nodup_cons.mp hnd).2
    have ha := (List.nodup_cons.mp hnd).1
    rcases List.mem_cons.mp hq with rfl | hqt
    · have hft : t.filter f = t.filter g := by
        apply List.filter_congr
        intro x hx
        exact hagree x (List.mem_cons_of_mem _ hx) (fun h => ha (by rw [← h]; exact hx))
      rw [List.filter_cons, List.filter_cons, hft]
      by_cases hf : f q = true <;> by_cases hg : g q = true <;> simp [hf, hg]
    · have hane : a ≠ q := fun h => ha (by rw [h]; exact hqt)
      have hfa : f a = g a := hagree a (List.mem_cons_self _ _) hane
      have hrec := ih hnd' hqt (fun x hx hne => hagree x (List.mem_cons_of_mem _ hx) hne)
      rw [List.filter_cons, List.filter_cons, hfa]
      by_cases hg : g a = true <;> simp [hg] <;> omega

/-- The total number of pieces on the (in-range part of the) board. -/
def occCount (b : Board) : Nat :=
  (allPositions.filter fun q => (getPieceAt b q).isSome).length

/-- The total piece count, as the sum of the per-player `countPieces`. -/
def totalPieceCount (b : Board) : Nat :=
  countPieces b Player.white + countPieces b Player.black

theorem filter_or_split {α : Type} (l : List α) (f g h : α → Bool)
    (hfg : ∀ x ∈ l, h x = (f x || g x)) (hdisj : ∀ x ∈ l, ¬(f x = true ∧ g x = true)) :
    (l.filter f).length + (l.filter g).length = (l.filter h).length := by
  induction l with
  | nil => simp
  | cons a t ih =>
    have ht := ih (fun x hx => hfg x (List.mem_cons_of_mem _ hx))
      (fun x hx => hdisj x (List.mem_cons_of_mem _ hx))
    have hha := hfg a (List.mem_cons_self _ _)
    have hda := hdisj a (List.mem_cons_self _ _)
    by_cases hf : f a <;> by_cases hg : g a <;>
      simp [List.filter_cons, hf, hg, hha] at hda ⊢ <;> omega

theorem totalPieceCount_eq_occCount (b : Board) : totalPieceCount b = occCount b := by
  unfold totalPieceCount countPieces getPlayerPieces occCount
  apply filter_or_split
  · intro q hq
    rw [getPieceAt_eq_of_valid (mem_allPositions.mp hq)]
    rcases hb : b q with _ | pc
    · simp
    · rcases hp : pc.player <;> simp [hp]
  · intro q _
    rcases hb : b q with _ | pc
    · simp
    · rcases hp : pc.player <;> simp [hp]

theorem occCount_set_none {b : Board} {q : Position} (hval : isValidPosition q = true)
    (hsome : (getPieceAt b q).isSome = true) :
    occCount (setPieceAt b q none) + 1 = occCount b := by
  have hmem : q ∈ allPositions := mem_allPositions.mpr hval
  have hkey := filter_length_update (l := allPositions) (q := q) allPositions_nodup hmem
    (fun p => (getPieceAt (setPieceAt b q none) p).isSome)
    (fun p => (getPieceAt b p).isSome)
    (fun x _ hne => by
      show (getPieceAt (setPieceAt b q none) x).isSome = (getPieceAt b x).isSome
      rw [getPieceAt_setPieceAt_other hne])
  simp only at hkey
  simp only [getPieceAt_setPieceAt_same hval, hsome, Option.isSome_none, if_true, ite_true,
    ite_false, Bool.false_eq_true, if_false] at hkey
  simpa [occCount] using hkey

theorem occCount_set_some {b : Board} {q : Position} {pc : Piece}
    (hval : isValidPosition q = true) (hnone : getPieceAt b q = none) :
    occCount (setPieceAt b q (some pc)) = occCount b + 1 := by
  have hmem : q ∈ allPositions := mem_allPositions.mpr hval
  have hkey := filter_length_update (l := allPositions) (q := q) allPositions_nodup hmem
    (fun p => (getPieceAt (setPieceAt b q (some pc)) p).isSome)
    (fun p => (getPieceAt b p).isSome)
    (fun x _ hne => by
      show (getPieceAt (setPieceAt b q (some pc)) x).isSome = (getPieceAt b x).isSome
      rw [getPieceAt_setPieceAt_other hne])
  simp only at hkey
  simp only [getPieceAt_setPieceAt_same hval, hnone, Option.isSome_some, Option.isSome_none,
    ite_true, ite_false, Bool.false_eq_true, if_false, if_true] at hkey
  simpa [occCount] using hkey

/-- Clearing a list of squares, as `executeMove` does for the captures. -/
def foldClear (b : Board) (l : List Position) : Board :=
  l.foldl (fun bb c => setPieceAt bb c none) b

theorem getPieceAt_foldClear_not_mem {l : List Position} {b : Board} {q : Position}
    (h : q ∉ l) : getPieceAt (foldClear b l) q = getPieceAt b q := by
  induction l generalizing b with
  | nil => rfl
  | cons a t ih =>
    have hqa : q ≠ a := fun hh => h (hh ▸ List.mem_cons_self _ _)
    rw [foldClear, List.foldl_cons, ← foldClear, ih (fun hh => h (List.mem_cons_of_mem _ hh)),
      getPieceAt_setPieceAt_other hqa]

theorem getPieceAt_foldClear_mem {l : List Position} {b : Board} {q : Position}
    (h : q ∈ l) (hval : isValidPosition q = true) :
    getPieceAt (foldClear b l) q = none := by
  induction l generalizing b with
  | nil => cases h
  | cons a t ih =>
    rw [foldClear, List.foldl_cons, ← foldClear]
    rcases List.mem_cons.mp h with rfl | hqt
    · by_cases hq : q ∈ t
      · exact ih hq
      · rw [getPieceAt_foldClear_not_mem hq, getPieceAt_setPieceAt_same hval]
    · exact ih hqt

theorem occCount_foldClear {l : List Position} {b : Board}
    (hnd : l.Nodup) (hocc : ∀ q ∈ l, (getPieceAt b q).isSome = true) :
    occCount (foldClear b l) + l.length = occCount b := by
  induction l generalizing b with
  | nil => simp [foldClear]
  | cons a t ih =>
    have ha := (List.nodup_cons.mp hnd).1
    have hnd' := (List.nodup_cons.mp hnd).2
    have hsa : (getPieceAt b a).isSome = true := hocc a (List.mem_cons_self _ _)
    have hva : isValidPosition a = true := by
      rcases hh : getPieceAt b a with _ | pc
      · rw [hh] at hsa; simp at hsa
      · exact getPieceAt_valid hh
    have hstep := occCount_set_none (b := b) hva hsa
    have hrec := ih (b := setPieceAt b a none) hnd' (fun q hq => by
      have hne : q ≠ a := fun hh => ha (by rw [← hh]; exact hq)
      rw [getPieceAt_setPieceAt_other hne]
      exact hocc q (List.mem_cons_of_mem _ hq))
    rw [foldClear, List.foldl_cons]
    simp only [List.length_cons]
    rw [← foldClear]
    omega

/-! ### Invariants of the capture-chain search -/

theorem position_eq_iff {a b : Position} : a = b ↔ a.row = b.row ∧ a.col = b.col := by
  cases a; cases b; simp [Position.mk.injEq]

theorem any_positionsEqual {l : List Position} {x : Position} :
    (l.any fun c => positionsEqual c x) = true ↔ x ∈ l := by
  simp [List.any_eq_true, positionsEqual_iff]

theorem capturedListHas_iff {l : List Position} {c : Position} :
    pawnJump.capturedListHas l c = true ↔ c ∈ l := by
  simp [pawnJump.capturedListHas, List.any_eq_true, positionsEqual_iff]

theorem dirs_spec {dir : Position} (h : dir ∈ DIRECTIONS) :
    (dir.row = 1 ∨ dir.row = -1) ∧ (dir.col = 1 ∨ dir.col = -1) := by
  simp only [DIRECTIONS, List.mem_cons, List.not_mem_nil, or_false] at h
  rcases h with rfl | rfl | rfl | rfl <;> simp

theorem getDirections_spec {piece : Piece} {dir : Position} (h : dir ∈ getDirections piece) :
    (dir.row = 1 ∨ dir.row = -1) ∧ (dir.col = 1 ∨ dir.col = -1) := by
  unfold getDirections at h
  by_cases ht : piece.type = PieceType.king
  · rw [if_pos ht] at h
    exact dirs_spec h
  · rw [if_neg ht] at h
    by_cases hp : piece.player = Player.white <;>
      [rw [if_pos hp] at h; rw [if_neg hp] at h] <;>
      simp only [List.mem_cons, List.not_mem_nil, or_false] at h <;>
      rcases h with rfl | rfl <;> simp

/-- Everything `executeMove` needs to know about a move generated by one
call of the capture search: the new captures form a distinct, valid,
enemy-occupied tail appended to `capturedSoFar`, away from the start
square; the landing square is valid, dark-square-parity preserving, and
empty on this board unless it is the start square or a captured square. -/
def chainSpec (board : Board) (pos : Position) (piece : Piece)
    (capturedSoFar : List Position) (m : Move) : Prop :=
  m.«from» = pos ∧
  ∃ tail,
    m.captures = capturedSoFar ++ tail ∧
    tail ≠ [] ∧
    tail.Nodup ∧
    (∀ q ∈ tail, q ∉ capturedSoFar) ∧
    (∀ q ∈ tail, isValidPosition q = true ∧ q ≠ pos ∧
      ∃ e, getPieceAt board q = some e ∧ e.player ≠ piece.player) ∧
    isValidPosition m.«to» = true ∧
    (getPieceAt board m.«to» = none ∨ m.«to» = pos ∨ m.«to» ∈ tail) ∧
    (m.«to».row + m.«to».col) % 2 = (pos.row + pos.col) % 2

theorem pawnJump_spec
    {go : Board → Position → Piece → List Position → List Move}
    (hgo : ∀ b' p' pc' s' m', m' ∈ go b' p' pc' s' → chainSpec b' p' pc' s' m')
    {board : Board} {pos : Position} {piece : Piece} {capturedSoFar : List Position}
    {dir : Position} (hdir : dir ∈ DIRECTIONS) {m : Move}
    (hm : m ∈ pawnJump go board pos piece capturedSoFar dir) :
    chainSpec board pos piece capturedSoFar m := by
  obtain ⟨hdr, hdc⟩ := dirs_spec hdir
  simp only [pawnJump] at hm
  set enemyPos : Position := ⟨pos.row + dir.row, pos.col + dir.col⟩ with henemy
  set landPos : Position := ⟨pos.row + dir.row * 2, pos.col + dir.col * 2⟩ with hland
  have hep : enemyPos ≠ pos := by
    intro hh
    rw [henemy, position_eq_iff] at hh
    dsimp only at hh
    rcases hdr with h | h <;> omega
  have hlp : landPos ≠ pos := by
    intro hh
    rw [hland, position_eq_iff] at hh
    dsimp only at hh
    rcases hdr with h | h <;> omega
  have hle : landPos ≠ enemyPos := by
    intro hh
    rw [hland, henemy, position_eq_iff] at hh
    dsimp only at hh
    rcases hdr with h | h <;> omega
  have hparl : (landPos.row + landPos.col) % 2 = (pos.row + pos.col) % 2 := by
    rw [hland]
    dsimp only
    omega
  split at hm
  case isFalse => simp at hm
  case isTrue hvalid =>
    obtain ⟨hve, hvl⟩ := hvalid
    split at hm
    case isTrue => simp at hm
    case isFalse hnotcap =>
      have hens : enemyPos ∉ capturedSoFar := fun hmem =>
        hnotcap (any_positionsEqual.mpr hmem)
      split at hm
      case h_2 => simp at hm
      case h_1 _ _ enemyPiece heqe heql =>
        split at hm
        case isFalse => simp at hm
        case isTrue hply =>
          -- the board after this jump, as in the source
          set movedPiece : Piece :=
            if shouldPromote landPos piece.player then ⟨piece.player, PieceType.king⟩ else piece
            with hmoved
          have hmovedpl : movedPiece.player = piece.player := by
            rw [hmoved]
            split <;> rfl
          set tempBoard :=
            setPieceAt (setPieceAt (setPieceAt (cloneBoard board) pos none) enemyPos none)
              landPos (some movedPiece) with htemp
          have htemp_other : ∀ q : Position, q ≠ pos → q ≠ enemyPos → q ≠ landPos →
              getPieceAt tempBoard q = getPieceAt board q := by
            intro q h1 h2 h3
            rw [htemp, getPieceAt_setPieceAt_other h3, getPieceAt_setPieceAt_other h2,
              getPieceAt_setPieceAt_other h1]
            rfl
          have htemp_enemy : getPieceAt tempBoard enemyPos = none := by
            rw [htemp, getPieceAt_setPieceAt_other (Ne.symm hle)]
            exact getPieceAt_setPieceAt_same hve
          have htemp_pos : getPieceAt tempBoard pos = none := by
            by_cases hvp : isValidPosition pos = true
            · rw [htemp, getPieceAt_setPieceAt_other hlp.symm, getPieceAt_setPieceAt_other
                (Ne.symm hep)]
              exact getPieceAt_setPieceAt_same hvp
            · rw [htemp, getPieceAt_setPieceAt_other hlp.symm, getPieceAt_setPieceAt_other
                (Ne.symm hep)]
              simp [getPieceAt, hvp, setPieceAt]
          have htemp_land : getPieceAt tempBoard landPos = some movedPiece := by
            rw [htemp]
            exact getPieceAt_setPieceAt_same hvl
          split at hm
          case isTrue hcont =>
            rw [List.mem_map] at hm
            obtain ⟨c, hc, rfl⟩ := hm
            obtain ⟨hcfrom, tail', hccap, hcne, hcnd, hcnotin, hcocc, hcval, hcto, hcpar⟩ :=
              hgo _ _ _ _ _ hc
            -- the filtered continuation captures are exactly the new tail
            have hfilter : c.captures.filter (fun q => ! pawnJump.capturedListHas
                (capturedSoFar ++ [enemyPos]) q) = tail' := by
              rw [hccap, List.filter_append]
              have h1 : (capturedSoFar ++ [enemyPos]).filter (fun q =>
                  ! pawnJump.capturedListHas (capturedSoFar ++ [enemyPos]) q) = [] := by
                rw [List.filter_eq_nil_iff]
                intro a ha
                simp [capturedListHas_iff, ha]
              have h2 : tail'.filter (fun q =>
                  ! pawnJump.capturedListHas (capturedSoFar ++ [enemyPos]) q) = tail' := by
                rw [List.filter_eq_self]
                intro a ha
                have hniff : pawnJump.capturedListHas (capturedSoFar ++ [enemyPos]) a = false :=
                  Bool.eq_false_iff.mpr (fun hc => hcnotin a ha (capturedListHas_iff.mp hc))
                simp [hniff]
              rw [h1, h2, List.nil_append]
            have htail'_occ : ∀ q ∈ tail', q ≠ pos ∧ q ≠ enemyPos ∧
                isValidPosition q = true ∧
                ∃ e, getPieceAt board q = some e ∧ e.player ≠ piece.player := by
              intro q hq
              obtain ⟨hqval, hqland, e, hqe, hqply⟩ := hcocc q hq
              have hqe_ne : q ≠ enemyPos := fun hh => by
                rw [hh, htemp_enemy] at hqe
                cases hqe
              have hqp_ne : q ≠ pos := fun hh => by
                rw [hh, htemp_pos] at hqe
                cases hqe
              refine ⟨hqp_ne, hqe_ne, hqval, e, ?_, by rwa [hmovedpl] at hqply⟩
              rw [← htemp_other q hqp_ne hqe_ne hqland]
              exact hqe
            refine ⟨rfl, enemyPos :: tail', ?_, by simp, ?_, ?_, ?_, ?_, ?_, ?_⟩
            · dsimp only
              rw [hfilter, List.append_assoc, List.singleton_append]
            · rw [List.nodup_cons]
              refine ⟨fun hmem => ?_, hcnd⟩
              obtain ⟨_, hne, _⟩ := htail'_occ enemyPos hmem
              exact hne rfl
            · intro q hq
              rcases List.mem_cons.mp hq with rfl | hq'
              · exact hens
              · intro hmem
                exact hcnotin q hq' (List.mem_append_left _ hmem)
            · intro q hq
              rcases List.mem_cons.mp hq with rfl | hq'
              · exact ⟨hve, hep, enemyPiece, heqe, hply⟩
              · obtain ⟨h1, _, h3, h4⟩ := htail'_occ q hq'
                exact ⟨h3, h1, h4⟩
            · exact hcval
            · rcases hcto with hnone | hpos | hmem
              · by_cases h1 : c.«to» = pos
                · exact Or.inr (Or.inl h1)
                · by_cases h2 : c.«to» = enemyPos
                  · exact Or.inr (Or.inr (h2 ▸ List.mem_cons_self _ _))
                  · have h3 : c.«to» ≠ landPos := fun hh => by
                      rw [hh, htemp_land] at hnone
                      cases hnone
                    refine Or.inl ?_
                    show getPieceAt board c.«to» = none
                    rw [← htemp_other _ h1 h2 h3]
                    exact hnone
              · refine Or.inl ?_
                show getPieceAt board c.«to» = none
                rw [hpos]
                exact heql
              · exact Or.inr (Or.inr (List.mem_cons_of_mem _ hmem))
            · show (c.«to».row + c.«to».col) % 2 = (pos.row + pos.col) % 2
              rw [hcpar, hparl]
          case isFalse hcont =>
            simp only [List.mem_singleton] at hm
            subst hm
            refine ⟨rfl, [enemyPos], rfl, by simp, by simp, ?_, ?_, hvl, Or.inl heql, hparl⟩
            · intro q hq
              rw [List.mem_singleton] at hq
              subst hq
              exact hens
            · intro q hq
              rw [List.mem_singleton] at hq
              subst hq
              exact ⟨hve, hep, enemyPiece, heqe, hply⟩

theorem kingScan_spec
    {go : Board → Position → Piece → List Position → List Move}
    (hgo : ∀ b' p' pc' s' m', m' ∈ go b' p' pc' s' → chainSpec b' p' pc' s' m')
    {board : Board} {pos : Position} {piece : Piece} {capturedSoFar : List Position}
    {dir : Position} (hdir : dir ∈ DIRECTIONS) :
    ∀ (dfuel : Nat) (distance : Int) (foundEnemy : Option Position),
      1 ≤ distance →
      (∀ e, foundEnemy = some e →
        isValidPosition e = true ∧ e ∉ capturedSoFar ∧
        (∃ ep, getPieceAt board e = some ep ∧ ep.player ≠ piece.player) ∧
        ∃ d0, 1 ≤ d0 ∧ d0 < distance ∧
          e = ⟨pos.row + dir.row * d0, pos.col + dir.col * d0⟩) →
      ∀ m, m ∈ kingScan go board pos piece capturedSoFar dir dfuel distance foundEnemy →
        chainSpec board pos piece capturedSoFar m := by
  obtain ⟨hdr, hdc⟩ := dirs_spec hdir
  intro dfuel
  induction dfuel with
  | zero =>
    intro distance fe _ _ m hm
    simp [kingScan] at hm
  | succ n ih =>
    intro distance fe hdist hfe m hm
    simp only [kingScan] at hm
    set checkPos : Position :=
      ⟨pos.row + dir.row * distance, pos.col + dir.col * distance⟩ with hcheck
    have hweaken : ∀ e, fe = some e →
        isValidPosition e = true ∧ e ∉ capturedSoFar ∧
        (∃ ep, getPieceAt board e = some ep ∧ ep.player ≠ piece.player) ∧
        ∃ d0, 1 ≤ d0 ∧ d0 < distance + 1 ∧
          e = ⟨pos.row + dir.row * d0, pos.col + dir.col * d0⟩ := by
      intro e he
      obtain ⟨h1, h2, h3, d0, h4, h5, h6⟩ := hfe e he
      exact ⟨h1, h2, h3, d0, h4, by omega, h6⟩
    split at hm
    case isFalse => simp at hm
    case isTrue hvalid =>
      split at hm
      case h_1 _ checkPiece hcheckeq =>
        split at hm
        case isTrue => simp at hm
        case isFalse hfenone =>
          split at hm
          case isTrue => simp at hm
          case isFalse hplyne =>
            split at hm
            case isTrue hincap =>
              exact ih (distance + 1) fe (by omega) hweaken m hm
            case isFalse hincap =>
              refine ih (distance + 1) (some checkPos) (by omega) ?_ m hm
              intro e he
              rw [Option.some.injEq] at he
              subst he
              refine ⟨hvalid, fun hmem => hincap (any_positionsEqual.mpr hmem),
                ⟨checkPiece, hcheckeq, hplyne⟩, distance, hdist, by omega, rfl⟩
      case h_2 _ hchecknone =>
        split at hm
        case h_1 =>
          rename_i fe'
          rw [List.mem_append] at hm
          rcases hm with hm | hm
          case inr =>
            exact ih (distance + 1) (some fe') (by omega) hweaken m hm
          case inl =>
            obtain ⟨hfeval, hfenotin, ⟨ep, hfep, hfeply⟩, d0, hd0one, hd0lt, hfeeq⟩ :=
              hfe fe' rfl
            have hcp : checkPos ≠ pos := by
              intro hh
              rw [hcheck, position_eq_iff] at hh
              dsimp only at hh
              rcases hdr with h | h <;> rw [h] at hh <;> omega
            have hcf : checkPos ≠ fe' := by
              intro hh
              rw [hcheck, hfeeq, position_eq_iff] at hh
              dsimp only at hh
              rcases hdr with h | h <;> rw [h] at hh <;> omega
            have hfp : fe' ≠ pos := by
              intro hh
              rw [hfeeq, position_eq_iff] at hh
              dsimp only at hh
              rcases hdr with h | h <;> rw [h] at hh <;> omega
            have hparc : (checkPos.row + checkPos.col) % 2 = (pos.row + pos.col) % 2 := by
              rw [hcheck]
              dsimp only
              rcases hdr with h | h <;> rcases hdc with h2 | h2 <;> rw [h, h2] <;> omega
            set tempBoard :=
              setPieceAt (setPieceAt (setPieceAt (cloneBoard board) pos none) fe' none)
                checkPos (some piece) with htemp
            have htemp_other : ∀ q : Position, q ≠ pos → q ≠ fe' → q ≠ checkPos →
                getPieceAt tempBoard q = getPieceAt board q := by
              intro q h1 h2 h3
              rw [htemp, getPieceAt_setPieceAt_other h3, getPieceAt_setPieceAt_other h2,
                getPieceAt_setPieceAt_other h1]
              rfl
            have htemp_fe : getPieceAt tempBoard fe' = none := by
              rw [htemp, getPieceAt_setPieceAt_other (Ne.symm hcf)]
              exact getPieceAt_setPieceAt_same hfeval
            have htemp_pos : getPieceAt tempBoard pos = none := by
              rw [htemp, getPieceAt_setPieceAt_other (Ne.symm hcp),
                getPieceAt_setPieceAt_other (Ne.symm hfp)]
              by_cases hvp : isValidPosition pos = true
              · exact getPieceAt_setPieceAt_same hvp
              · simp [getPieceAt, hvp, setPieceAt]
            have htemp_check : getPieceAt tempBoard checkPos = some piece := by
              rw [htemp]
              exact getPieceAt_setPieceAt_same hvalid
            split at hm
            case isTrue hcont =>
              rw [List.mem_map] at hm
              obtain ⟨c, hc, rfl⟩ := hm
              obtain ⟨hcfrom, tail', hccap, hcne, hcnd, hcnotin, hcocc, hcval, hcto, hcpar⟩ :=
                hgo _ _ _ _ _ hc
              have hfilter : c.captures.filter (fun q => ! pawnJump.capturedListHas
                  (capturedSoFar ++ [fe']) q) = tail' := by
                rw [hccap, List.filter_append]
                have h1 : (capturedSoFar ++ [fe']).filter (fun q =>
                    ! pawnJump.capturedListHas (capturedSoFar ++ [fe']) q) = [] := by
                  rw [List.filter_eq_nil_iff]
                  intro a ha
                  simp [capturedListHas_iff, ha]
                have h2 : tail'.filter (fun q =>
                    ! pawnJump.capturedListHas (capturedSoFar ++ [fe']) q) = tail' := by
                  rw [List.filter_eq_self]
                  intro a ha
                  have hniff : pawnJump.capturedListHas (capturedSoFar ++ [fe']) a = false :=
                    Bool.eq_false_iff.mpr (fun hc2 => hcnotin a ha (capturedListHas_iff.mp hc2))
                  simp [hniff]
                rw [h1, h2, List.nil_append]
              have htail'_occ : ∀ q ∈ tail', q ≠ pos ∧ q ≠ fe' ∧
                  isValidPosition q = true ∧
                  ∃ e, getPieceAt board q = some e ∧ e.player ≠ piece.player := by
                intro q hq
                obtain ⟨hqval, hqcheck, e, hqe, hqply⟩ := hcocc q hq
                have hqf_ne : q ≠ fe' := fun hh => by
                  rw [hh, htemp_fe] at hqe
                  cases hqe
                have hqp_ne : q ≠ pos := fun hh => by
                  rw [hh, htemp_pos] at hqe
                  cases hqe
                refine ⟨hqp_ne, hqf_ne, hqval, e, ?_, hqply⟩
                rw [← htemp_other q hqp_ne hqf_ne hqcheck]
                exact hqe
              refine ⟨rfl, fe' :: tail', ?_, by simp, ?_, ?_, ?_, ?_, ?_, ?_⟩
              · dsimp only
                rw [hfilter, List.append_assoc, List.singleton_append]
              · rw [List.nodup_cons]
                refine ⟨fun hmem => ?_, hcnd⟩
                obtain ⟨_, hne, _⟩ := htail'_occ fe' hmem
                exact hne rfl
              · intro q hq
                rcases List.mem_cons.mp hq with rfl | hq'
                · exact hfenotin
                · intro hmem
                  exact hcnotin q hq' (List.mem_append_left _ hmem)
              · intro q hq
                rcases List.mem_cons.mp hq with rfl | hq'
                · exact ⟨hfeval, hfp, ep, hfep, hfeply⟩
                · obtain ⟨h1, _, h3, h4⟩ := htail'_occ q hq'
                  exact ⟨h3, h1, h4⟩
              · exact hcval
              · rcases hcto with hnone | hpos | hmem
                · by_cases h1 : c.«to» = pos
                  · exact Or.inr (Or.inl h1)
                  · by_cases h2 : c.«to» = fe'
                    · exact Or.inr (Or.inr (h2 ▸ List.mem_cons_self _ _))
                    · have h3 : c.«to» ≠ checkPos := fun hh => by
                        rw [hh, htemp_check] at hnone
                        cases hnone
                      refine Or.inl ?_
                      show getPieceAt board c.«to» = none
                      rw [← htemp_other _ h1 h2 h3]
                      exact hnone
                · refine Or.inl ?_
                  show getPieceAt board c.«to» = none
                  rw [hpos]
                  exact hchecknone
                · exact Or.inr (Or.inr (List.mem_cons_of_mem _ hmem))
              · show (c.«to».row + c.«to».col) % 2 = (pos.row + pos.col) % 2
                rw [hcpar, hparc]
            case isFalse hcont =>
              simp only [List.mem_singleton] at hm
              subst hm
              refine ⟨rfl, [fe'], rfl, by simp, by simp, ?_, ?_, hvalid,
                Or.inl hchecknone, hparc⟩
              · intro q hq
                rw [List.mem_singleton] at hq
                subst hq
                exact hfenotin
              · intro q hq
                rw [List.mem_singleton] at hq
                subst hq
                exact ⟨hfeval, hfp, ep, hfep, hfeply⟩
        case h_2 =>
          exact ih (distance + 1) none (by omega) (by simp) m hm

/-- The full invariants of `getCapturesForPiece`. -/
theorem getCapturesForPieceF_spec :
    ∀ (fuel : Nat) (board : Board) (pos : Position) (piece : Piece)
      (capturedSoFar : List Position) (m : Move),
      m ∈ getCapturesForPieceF fuel board pos piece capturedSoFar →
      chainSpec board pos piece capturedSoFar m := by
  intro fuel
  induction fuel with
  | zero =>
    intro board pos piece sofar m hm
    simp [getCapturesForPieceF] at hm
  | succ n ih =>
    intro board pos piece sofar m hm
    rw [getCapturesForPieceF] at hm
    split at hm <;> rw [List.mem_flatMap] at hm <;> obtain ⟨dir, hdir, hm⟩ := hm
    · exact pawnJump_spec (fun b' p' pc' s' m' hm' => ih b' p' pc' s' m' hm') hdir hm
    · exact kingScan_spec (fun b' p' pc' s' m' hm' => ih b' p' pc' s' m' hm') hdir
        16 1 none le_rfl (by simp) m hm

theorem getCapturesForPiece_spec {board : Board} {pos : Position} {piece : Piece}
    {capturedSoFar : List Position} {m : Move}
    (hm : m ∈ getCapturesForPiece board pos piece capturedSoFar) :
    chainSpec board pos piece capturedSoFar m :=
  getCapturesForPieceF_spec 64 board pos piece capturedSoFar m hm

theorem chain_captures_ne_nil {board : Board} {pos : Position} {piece : Piece} {m : Move}
    (hm : m ∈ getCapturesForPiece board pos piece []) : m.captures ≠ [] := by
  obtain ⟨_, tail, hcap, hne, _⟩ := getCapturesForPiece_spec hm
  rw [hcap, List.nil_append]
  exact hne

/-! ### Non-capture moves -/

theorem dirs_even {dir : Position} (h : dir ∈ DIRECTIONS) :
    (dir.row + dir.col) % 2 = 0 := by
  simp only [DIRECTIONS, List.mem_cons, List.not_mem_nil, or_false] at h
  rcases h with rfl | rfl | rfl | rfl <;> decide

theorem getDirections_even {piece : Piece} {dir : Position} (h : dir ∈ getDirections piece) :
    (dir.row + dir.col) % 2 = 0 := by
  unfold getDirections at h
  by_cases ht : piece.type = PieceType.king
  · rw [if_pos ht] at h
    exact dirs_even h
  · rw [if_neg ht] at h
    by_cases hp : piece.player = Player.white <;>
      [rw [if_pos hp] at h; rw [if_neg hp] at h] <;>
      simp only [List.mem_cons, List.not_mem_nil, or_false] at h <;>
      rcases h with rfl | rfl <;> decide

theorem kingSlide_spec {board : Board} {pos dir : Position}
    (heven : (dir.row + dir.col) % 2 = 0) :
    ∀ (sfuel : Nat) (cur : Position),
      (cur.row + cur.col) % 2 = (pos.row + pos.col) % 2 →
      ∀ m ∈ kingSlide board pos dir sfuel cur,
        m.«from» = pos ∧ m.captures = [] ∧ m.isPromotion = false ∧
        isValidPosition m.«to» = true ∧ getPieceAt board m.«to» = none ∧
        (m.«to».row + m.«to».col) % 2 = (pos.row + pos.col) % 2 := by
  intro sfuel
  induction sfuel with
  | zero =>
    intro cur _ m hm
    simp [kingSlide] at hm
  | succ n ih =>
    intro cur hpar m hm
    rw [kingSlide] at hm
    split at hm
    case isFalse => simp at hm
    case isTrue hcond =>
      rcases List.mem_cons.mp hm with rfl | hm'
      · exact ⟨rfl, rfl, rfl, hcond.1, hcond.2, hpar⟩
      · exact ih ⟨cur.row + dir.row, cur.col + dir.col⟩ (by dsimp only; omega) m hm'

theorem getNonCaptureMovesForPiece_spec {board : Board} {pos : Position} {piece : Piece}
    {m : Move} (hm : m ∈ getNonCaptureMovesForPiece board pos piece) :
    m.«from» = pos ∧ m.captures = [] ∧ isValidPosition m.«to» = true ∧
    getPieceAt board m.«to» = none ∧
    (m.«to».row + m.«to».col) % 2 = (pos.row + pos.col) % 2 ∧
    (piece.type = PieceType.pawn → m.isPromotion = shouldPromote m.«to» piece.player) ∧
    (piece.type = PieceType.king → m.isPromotion = false) := by
  unfold getNonCaptureMovesForPiece at hm
  split at hm
  case isTrue hpawn =>
    rw [List.mem_flatMap] at hm
    obtain ⟨dir, hdir, hm⟩ := hm
    have heven := getDirections_even hdir
    simp only [] at hm
    split at hm
    case isFalse => simp at hm
    case isTrue hcond =>
      rw [List.mem_singleton] at hm
      subst hm
      refine ⟨rfl, rfl, hcond.1, hcond.2, by dsimp only; omega, fun _ => rfl, fun hk => ?_⟩
      rw [hpawn] at hk
      cases hk
  case isFalse hking =>
    rw [List.mem_flatMap] at hm
    obtain ⟨dir, hdir, hm⟩ := hm
    have heven := getDirections_even hdir
    obtain ⟨h1, h2, h3, h4, h5, h6⟩ :=
      kingSlide_spec heven 16 ⟨pos.row + dir.row, pos.col + dir.col⟩ (by dsimp only; omega) m hm
    exact ⟨h1, h2, h4, h5, h6, fun hp => absurd hp hking, fun _ => h3⟩

/-! ### Characterizing the legal-move list -/

/-- The per-piece maximal capture count of `getMovesForPiece`. -/
def pieceMaxCaptures (board : Board) (pos : Position) (piece : Piece) : Nat :=
  listMax ((getCapturesForPiece board pos piece []).map fun c => c.captures.length)

theorem getMovesForPiece_of_captures {board : Board} {pos : Position} {piece : Piece}
    (hne : getCapturesForPiece board pos piece [] ≠ []) :
    getMovesForPiece board pos piece =
      (getCapturesForPiece board pos piece []).filter fun c =>
        decide (c.captures.length = pieceMaxCaptures board pos piece) := by
  unfold getMovesForPiece pieceMaxCaptures
  rw [if_pos (by simpa [List.length_pos] using hne)]

theorem getMovesForPiece_of_no_captures {board : Board} {pos : Position} {piece : Piece}
    (hnil : getCapturesForPiece board pos piece [] = []) :
    getMovesForPiece board pos piece = getNonCaptureMovesForPiece board pos piece := by
  unfold getMovesForPiece
  rw [if_neg (by simp [hnil])]

theorem pieceMaxCaptures_pos {board : Board} {pos : Position} {piece : Piece}
    (hne : getCapturesForPiece board pos piece [] ≠ []) :
    1 ≤ pieceMaxCaptures board pos piece := by
  have hmem := listMax_mem (l := (getCapturesForPiece board pos piece []).map
    fun c => c.captures.length) (by simpa using hne)
  rw [List.mem_map] at hmem
  obtain ⟨c, hc, hlen⟩ := hmem
  have := chain_captures_ne_nil hc
  rw [pieceMaxCaptures, ← hlen]
  rcases hcc : c.captures with _ | _
  · exact absurd hcc this
  · simp [hcc]

theorem mem_getMovesForPiece_captures {board : Board} {pos : Position} {piece : Piece}
    {m : Move} (hchain : m ∈ getCapturesForPiece board pos piece [])
    (hlen : m.captures.length = pieceMaxCaptures board pos piece) :
    m ∈ getMovesForPiece board pos piece := by
  rw [getMovesForPiece_of_captures (fun h => by simp [h] at hchain), List.mem_filter]
  exact ⟨hchain, by simpa using hlen⟩

theorem getMovesForPiece_cases {board : Board} {pos : Position} {piece : Piece}
    {m : Move} (hm : m ∈ getMovesForPiece board pos piece) :
    (getCapturesForPiece board pos piece [] ≠ [] ∧
      m ∈ getCapturesForPiece board pos piece [] ∧
      m.captures.length = pieceMaxCaptures board pos piece) ∨
    (getCapturesForPiece board pos piece [] = [] ∧
      m ∈ getNonCaptureMovesForPiece board pos piece) := by
  by_cases hne : getCapturesForPiece board pos piece [] = []
  · right
    rw [getMovesForPiece_of_no_captures hne] at hm
    exact ⟨hne, hm⟩
  · left
    rw [getMovesForPiece_of_captures hne, List.mem_filter] at hm
    exact ⟨hne, hm.1, by simpa using hm.2⟩

/-- All capture chains of all of the player's pieces (unfiltered). -/
def allChains (board : Board) (player : Player) : List Move :=
  (getPlayerPieces board player).flatMap fun pos =>
    match getPieceAt board pos with
    | none => []
    | some piece => getCapturesForPiece board pos piece []

/-- The global maximum capture count over all chains of all pieces. -/
def maxChainLength (board : Board) (player : Player) : Nat :=
  listMax ((allChains board player).map fun m => m.captures.length)

/-- A capturing move exists somewhere on the board for this player. -/
def captureAvailable (board : Board) (player : Player) : Bool :=
  (getPlayerPieces board player).any fun pos =>
    match getPieceAt board pos with
    | some piece => ! (getCapturesForPiece board pos piece []).isEmpty
    | none => false

theorem mem_allChains {board : Board} {player : Player} {m : Move} :
    m ∈ allChains board player ↔
      ∃ pos pc, pos ∈ getPlayerPieces board player ∧ getPieceAt board pos = some pc ∧
        m ∈ getCapturesForPiece board pos pc [] := by
  unfold allChains
  rw [List.mem_flatMap]
  constructor
  · rintro ⟨pos, hpos, hm⟩
    rcases hpc : getPieceAt board pos with _ | pc
    · rw [hpc] at hm
      simp at hm
    · rw [hpc] at hm
      exact ⟨pos, pc, hpos, hpc, hm⟩
  · rintro ⟨pos, pc, hpos, hpc, hm⟩
    exact ⟨pos, hpos, by rw [hpc]; exact hm⟩

theorem mem_allCapturesList {board : Board} {player : Player} {m : Move} :
    m ∈ allCapturesList board player ↔
      ∃ pos pc, pos ∈ getPlayerPieces board player ∧ getPieceAt board pos = some pc ∧
        m ∈ getMovesForPiece board pos pc ∧ 0 < m.captures.length := by
  unfold allCapturesList
  rw [List.mem_flatMap]
  constructor
  · rintro ⟨pos, hpos, hm⟩
    rcases hpc : getPieceAt board pos with _ | pc
    · rw [hpc] at hm
      simp at hm
    · rw [hpc, List.mem_filter] at hm
      exact ⟨pos, pc, hpos, hpc, hm.1, by simpa using hm.2⟩
  · rintro ⟨pos, pc, hpos, hpc, hm, hlen⟩
    refine ⟨pos, hpos, ?_⟩
    rw [hpc, List.mem_filter]
    exact ⟨hm, by simpa using hlen⟩

theorem mem_allMovesList {board : Board} {player : Player} {m : Move} :
    m ∈ allMovesList board player ↔
      ∃ pos pc, pos ∈ getPlayerPieces board player ∧ getPieceAt board pos = some pc ∧
        m ∈ getMovesForPiece board pos pc ∧ m.captures.length = 0 := by
  unfold allMovesList
  rw [List.mem_flatMap]
  constructor
  · rintro ⟨pos, hpos, hm⟩
    rcases hpc : getPieceAt board pos with _ | pc
    · rw [hpc] at hm
      simp at hm
    · rw [hpc, List.mem_filter] at hm
      exact ⟨pos, pc, hpos, hpc, hm.1, by simpa using hm.2⟩
  · rintro ⟨pos, pc, hpos, hpc, hm, hlen⟩
    refine ⟨pos, hpos, ?_⟩
    rw [hpc, List.mem_filter]
    exact ⟨hm, by simpa using hlen⟩

theorem getAllValidMoves_of_captures {board : Board} {player : Player}
    (hne : allCapturesList board player ≠ []) :
    getAllValidMoves board player =
      (allCapturesList board player).filter fun m =>
        decide (m.captures.length =
          listMax ((allCapturesList board player).map fun m => m.captures.length)) := by
  unfold getAllValidMoves
  rw [if_pos (by simpa [List.length_pos] using hne)]

theorem getAllValidMoves_of_no_captures {board : Board} {player : Player}
    (hnil : allCapturesList board player = []) :
    getAllValidMoves board player = allMovesList board player := by
  unfold getAllValidMoves
  rw [if_neg (by simp [hnil])]

theorem allCapturesList_sub {board : Board} {player : Player} {m : Move}
    (hm : m ∈ allCapturesList board player) :
    m ∈ allChains board player ∧ m.captures ≠ [] := by
  obtain ⟨pos, pc, hpos, hpc, hmov, hlen⟩ := mem_allCapturesList.mp hm
  rcases getMovesForPiece_cases hmov with ⟨_, hchain, _⟩ | ⟨_, hnc⟩
  · exact ⟨mem_allChains.mpr ⟨pos, pc, hpos, hpc, hchain⟩,
      fun hh => by simp [hh] at hlen⟩
  · obtain ⟨_, hcap, _⟩ := getNonCaptureMovesForPiece_spec hnc
    rw [hcap] at hlen
    simp at hlen

theorem le_maxChainLength {board : Board} {player : Player} {c : Move}
    (hc : c ∈ allChains board player) :
    c.captures.length ≤ maxChainLength board player :=
  le_listMax (List.mem_map.mpr ⟨c, hc, rfl⟩)

/-- A chain attaining the global maximum is in `allCapturesList` (its
piece's maximum equals the global maximum). -/
theorem max_chain_mem_allCapturesList {board : Board} {player : Player} {c : Move}
    (hc : c ∈ allChains board player)
    (hlen : c.captures.length = maxChainLength board player) :
    c ∈ allCapturesList board player := by
  obtain ⟨pos, pc, hpos, hpc, hchain⟩ := mem_allChains.mp hc
  have hne : getCapturesForPiece board pos pc [] ≠ [] := fun h => by simp [h] at hchain
  have hle1 : c.captures.length ≤ pieceMaxCaptures board pos pc :=
    le_listMax (List.mem_map.mpr ⟨c, hchain, rfl⟩)
  have hle2 : pieceMaxCaptures board pos pc ≤ maxChainLength board player := by
    have hmem := listMax_mem (l := (getCapturesForPiece board pos pc []).map
      fun c => c.captures.length) (by simpa using hne)
    rw [List.mem_map] at hmem
    obtain ⟨c0, hc0, hlen0⟩ := hmem
    rw [pieceMaxCaptures, ← hlen0]
    exact le_maxChainLength (mem_allChains.mpr ⟨pos, pc, hpos, hpc, hc0⟩)
  have heq : c.captures.length = pieceMaxCaptures board pos pc := by omega
  refine mem_allCapturesList.mpr ⟨pos, pc, hpos, hpc,
    mem_getMovesForPiece_captures hchain heq, ?_⟩
  have := pieceMaxCaptures_pos hne
  omega

theorem captureAvailable_iff {board : Board} {player : Player} :
    captureAvailable board player = true ↔ allCapturesList board player ≠ [] := by
  constructor
  · intro h
    rw [captureAvailable, List.any_eq_true] at h
    obtain ⟨pos, hpos, hcond⟩ := h
    rcases hpc : getPieceAt board pos with _ | pc
    · rw [hpc] at hcond
      simp at hcond
    · rw [hpc] at hcond
      have hne : getCapturesForPiece board pos pc [] ≠ [] := by
        simpa [List.isEmpty_iff] using hcond
      have hmem := listMax_mem (l := (getCapturesForPiece board pos pc []).map
        fun c => c.captures.length) (by simpa using hne)
      rw [List.mem_map] at hmem
      obtain ⟨c0, hc0, hlen0⟩ := hmem
      have hc0mem : c0 ∈ allCapturesList board player := by
        refine mem_allCapturesList.mpr ⟨pos, pc, hpos, hpc,
          mem_getMovesForPiece_captures hc0 (by rw [hlen0]; rfl), ?_⟩
        have h1 := pieceMaxCaptures_pos hne
        have h2 : c0.captures.length = pieceMaxCaptures board pos pc := by
          rw [hlen0]; rfl
        omega
      exact fun h => by simp [h] at hc0mem
  · intro h
    rcases hl : allCapturesList board player with _ | ⟨m, rest⟩
    · exact absurd hl h
    · have hm : m ∈ allCapturesList board player := by rw [hl]; exact List.mem_cons_self _ _
      obtain ⟨pos, pc, hpos, hpc, hmov, hlen⟩ := mem_allCapturesList.mp hm
      rcases getMovesForPiece_cases hmov with ⟨hne, _, _⟩ | ⟨_, hnc⟩
      · rw [captureAvailable, List.any_eq_true]
        refine ⟨pos, hpos, ?_⟩
        rw [hpc]
        simpa [List.isEmpty_iff] using hne
      · obtain ⟨_, hcap, _⟩ := getNonCaptureMovesForPiece_spec hnc
        rw [hcap] at hlen
        simp at hlen

/-- When captures exist, the returned maximum equals the global maximum. -/
theorem filter_max_eq_maxChainLength {board : Board} {player : Player}
    (hne : allCapturesList board player ≠ []) :
    listMax ((allCapturesList board player).map fun m => m.captures.length) =
      maxChainLength board player := by
  apply Nat.le_antisymm
  · have hmem := listMax_mem (l := (allCapturesList board player).map
      fun m => m.captures.length) (by simpa using hne)
    rw [List.mem_map] at hmem
    obtain ⟨m0, hm0, hlen0⟩ := hmem
    rw [← hlen0]
    exact le_maxChainLength (allCapturesList_sub hm0).1
  · have hchne : allChains board player ≠ [] := by
      rcases hl : allCapturesList board player with _ | ⟨m, rest⟩
      · exact absurd hl hne
      · have hm : m ∈ allCapturesList board player := by
          rw [hl]; exact List.mem_cons_self _ _
        have := (allCapturesList_sub hm).1
        exact fun h => by simp [h] at this
    have hmem := listMax_mem (l := (allChains board player).map
      fun m => m.captures.length) (by simpa using hchne)
    rw [List.mem_map] at hmem
    obtain ⟨c, hc, hlen⟩ := hmem
    have hcmem := max_chain_mem_allCapturesList hc (by rw [hlen]; rfl)
    have : c.captures.length ≤ listMax ((allCapturesList board player).map
      fun m => m.captures.length) := le_listMax (List.mem_map.mpr ⟨c, hcmem, rfl⟩)
    rw [hlen] at this
    exact this

/-! ### Claims C1 and C2 -/

/-- Claim C1 (mandatory capture): whenever at least one capturing move
exists anywhere on the board for `player` (some piece of `player` has a
non-empty capture-chain list), every move returned by `getAllValidMoves`
is a capturing move — the returned set contains zero non-capturing
moves. -/
theorem C1_mandatory_capture (board : Board) (player : Player)
    (h : captureAvailable board player = true) :
    ∀ m ∈ getAllValidMoves board player, m.captures ≠ [] := by
  have hne := captureAvailable_iff.mp h
  rw [getAllValidMoves_of_captures hne]
  intro m hm
  rw [List.mem_filter] at hm
  exact (allCapturesList_sub hm.1).2

/-- Claim C2 (maximal capture): every capturing move returned by
`getAllValidMoves` has capture count equal to the global maximum over all
capture chains of all of the player's pieces (not merely the per-piece
maximum), and conversely every chain attaining that global maximum is
returned — all ties included, no tie-break. -/
theorem C2_maximal_capture (board : Board) (player : Player) :
    (∀ m ∈ getAllValidMoves board player, m.captures ≠ [] →
      m.captures.length = maxChainLength board player) ∧
    (∀ c ∈ allChains board player, c.captures.length = maxChainLength board player →
      c ∈ getAllValidMoves board player) := by
  constructor
  · intro m hm hcap
    by_cases hne : allCapturesList board player = []
    · rw [getAllValidMoves_of_no_captures hne] at hm
      obtain ⟨_, _, _, _, _, hlen⟩ := mem_allMovesList.mp hm
      rw [List.length_eq_zero] at hlen
      exact absurd hlen hcap
    · rw [getAllValidMoves_of_captures hne, List.mem_filter] at hm
      have := hm.2
      simp only [decide_eq_true_eq] at this
      rw [this]
      exact filter_max_eq_maxChainLength hne
  · intro c hc hlen
    have hcmem := max_chain_mem_allCapturesList hc hlen
    have hne : allCapturesList board player ≠ [] := fun h => by simp [h] at hcmem
    rw [getAllValidMoves_of_captures hne, List.mem_filter]
    refine ⟨hcmem, ?_⟩
    simp only [decide_eq_true_eq]
    rw [hlen]
    exact (filter_max_eq_maxChainLength hne).symm

/-! ### Claim C3: the piece count after `executeMove` -/

theorem mem_getAllValidMoves_sources {board : Board} {player : Player} {m : Move}
    (hm : m ∈ getAllValidMoves board player) :
    ∃ pos pc, pos ∈ getPlayerPieces board player ∧ getPieceAt board pos = some pc ∧
      pc.player = player ∧ m ∈ getMovesForPiece board pos pc := by
  have hsplit : ∃ pos pc, pos ∈ getPlayerPieces board player ∧
      getPieceAt board pos = some pc ∧ m ∈ getMovesForPiece board pos pc := by
    by_cases hne : allCapturesList board player = []
    · rw [getAllValidMoves_of_no_captures hne] at hm
      obtain ⟨pos, pc, h1, h2, h3, _⟩ := mem_allMovesList.mp hm
      exact ⟨pos, pc, h1, h2, h3⟩
    · rw [getAllValidMoves_of_captures hne, List.mem_filter] at hm
      obtain ⟨pos, pc, h1, h2, h3, _⟩ := mem_allCapturesList.mp hm.1
      exact ⟨pos, pc, h1, h2, h3⟩
  obtain ⟨pos, pc, h1, h2, h3⟩ := hsplit
  obtain ⟨pc', hpc', hpl'⟩ := mem_getPlayerPieces.mp h1
  rw [h2] at hpc'
  cases hpc'
  exact ⟨pos, pc, h1, h2, hpl', h3⟩

/-- Applying a move whose data satisfies the generator's invariants removes
exactly the captured pieces (plus moving the piece itself). -/
theorem executeMove_count {board : Board} {m : Move}
    (hfrom : (getPieceAt board m.«from»).isSome = true)
    (hnd : m.captures.Nodup)
    (hocc : ∀ q ∈ m.captures,
      isValidPosition q = true ∧ (getPieceAt board q).isSome = true ∧ q ≠ m.«from»)
    (hval : isValidPosition m.«to» = true)
    (hto : getPieceAt board m.«to» = none ∨ m.«to» = m.«from» ∨ m.«to» ∈ m.captures) :
    occCount (executeMove board m) + m.captures.length = occCount board := by
  obtain ⟨piece, hpc⟩ := Option.isSome_iff_exists.mp hfrom
  have hvf : isValidPosition m.«from» = true := getPieceAt_valid hpc
  have hexec : executeMove board m =
      setPieceAt (foldClear (setPieceAt board m.«from» none) m.captures) m.«to»
        (some (if m.isPromotion then ⟨piece.player, PieceType.king⟩ else piece)) := by
    unfold executeMove cloneBoard foldClear
    simp only []
    rw [hpc]
  have hc1 : occCount (setPieceAt board m.«from» none) + 1 = occCount board :=
    occCount_set_none hvf hfrom
  have hocc1 : ∀ q ∈ m.captures,
      (getPieceAt (setPieceAt board m.«from» none) q).isSome = true := by
    intro q hq
    obtain ⟨_, hs, hne⟩ := hocc q hq
    rw [getPieceAt_setPieceAt_other hne]
    exact hs
  have hc2 : occCount (foldClear (setPieceAt board m.«from» none) m.captures) +
      m.captures.length = occCount (setPieceAt board m.«from» none) :=
    occCount_foldClear hnd hocc1
  have hempty : getPieceAt (foldClear (setPieceAt board m.«from» none) m.captures)
      m.«to» = none := by
    by_cases hmem : m.«to» ∈ m.captures
    · exact getPieceAt_foldClear_mem hmem hval
    · rw [getPieceAt_foldClear_not_mem hmem]
      by_cases heq : m.«to» = m.«from»
      · rw [heq]
        exact getPieceAt_setPieceAt_same hvf
      · rw [getPieceAt_setPieceAt_other heq]
        rcases hto with h | h | h
        · exact h
        · exact absurd h heq
        · exact absurd h hmem
  have hc3 := @occCount_set_some (foldClear (setPieceAt board m.«from» none) m.captures)
    m.«to» (if m.isPromotion then ⟨piece.player, PieceType.king⟩ else piece) hval hempty
  rw [hexec, hc3]
  omega

/-- Claim C3: for every move produced by the generator, the total piece
count of `executeMove board move` never exceeds that of `board`, and equals
it minus `move.captures.length` exactly. -/
theorem C3_piece_count (board : Board) (player : Player) (m : Move)
    (hm : m ∈ getAllValidMoves board player) :
    totalPieceCount (executeMove board m) = totalPieceCount board - m.captures.length ∧
    totalPieceCount (executeMove board m) ≤ totalPieceCount board := by
  rw [totalPieceCount_eq_occCount, totalPieceCount_eq_occCount]
  have hkey : occCount (executeMove board m) + m.captures.length = occCount board := by
    obtain ⟨pos, pc, hpos, hpc, hpl, hmov⟩ := mem_getAllValidMoves_sources hm
    rcases getMovesForPiece_cases hmov with ⟨_, hchain, _⟩ | ⟨_, hnc⟩
    · obtain ⟨hfrom, tail, hcap, hne, hnd, _, hoccs, hvalto, hto, _⟩ :=
        getCapturesForPiece_spec hchain
      rw [List.nil_append] at hcap
      subst hcap
      subst hfrom
      refine executeMove_count (by rw [hpc]; rfl) hnd ?_ hvalto ?_
      · intro q hq
        obtain ⟨h1, h2, e, h3, _⟩ := hoccs q hq
        exact ⟨h1, by rw [h3]; rfl, h2⟩
      · exact hto
    · obtain ⟨hfrom, hcap, hvalto, hnone, _⟩ := getNonCaptureMovesForPiece_spec hnc
      subst hfrom
      refine executeMove_count (by rw [hpc]; rfl) (by rw [hcap]; exact List.nodup_nil) ?_
        hvalto (Or.inl hnone)
      intro q hq
      rw [hcap] at hq
      cases hq
  omega

/-! ### Promotion flags (claim C5) -/

theorem kingScan_promo {go : Board → Position → Piece → List Position → List Move}
    {board : Board} {pos : Position} {piece : Piece} {capturedSoFar : List Position}
    {dir : Position} :
    ∀ (dfuel : Nat) (distance : Int) (foundEnemy : Option Position),
      ∀ m ∈ kingScan go board pos piece capturedSoFar dir dfuel distance foundEnemy,
        m.isPromotion = false := by
  intro dfuel
  induction dfuel with
  | zero =>
    intro distance fe m hm
    simp [kingScan] at hm
  | succ n ih =>
    intro distance fe m hm
    simp only [kingScan] at hm
    split at hm
    case isFalse => simp at hm
    case isTrue =>
      split at hm
      case h_1 =>
        split at hm
        case isTrue => simp at hm
        case isFalse =>
          split at hm
          case isTrue => simp at hm
          case isFalse =>
            split at hm
            case isTrue => exact ih _ _ m hm
            case isFalse => exact ih _ _ m hm
      case h_2 =>
        split at hm
        case h_1 =>
          rw [List.mem_append] at hm
          rcases hm with hm | hm
          · split at hm
            · rw [List.mem_map] at hm
              obtain ⟨c, _, rfl⟩ := hm
              rfl
            · rw [List.mem_singleton] at hm
              subst hm
              rfl
          · exact ih _ _ m hm
        case h_2 => exact ih _ _ m hm

theorem king_no_promotion {fuel : Nat} {board : Board} {pos : Position} {piece : Piece}
    {capturedSoFar : List Position} (hk : piece.type = PieceType.king) :
    ∀ m ∈ getCapturesForPieceF fuel board pos piece capturedSoFar,
      m.isPromotion = false := by
  intro m hm
  cases fuel with
  | zero => simp [getCapturesForPieceF] at hm
  | succ n =>
    rw [getCapturesForPieceF] at hm
    split at hm
    case isTrue hp => rw [hk] at hp; cases hp
    case isFalse =>
      rw [List.mem_flatMap] at hm
      obtain ⟨dir, _, hm⟩ := hm
      exact kingScan_promo 16 1 none m hm

theorem pawn_promotion {piece : Piece} (hp : piece.type = PieceType.pawn) :
    ∀ (fuel : Nat) (board : Board) (pos : Position) (capturedSoFar : List Position)
      (m : Move), m ∈ getCapturesForPieceF fuel board pos piece capturedSoFar →
      shouldPromote m.«to» piece.player = true → m.isPromotion = true := by
  intro fuel
  induction fuel with
  | zero =>
    intro board pos sofar m hm
    simp [getCapturesForPieceF] at hm
  | succ n ih =>
    intro board pos sofar m hm hpromo
    rw [getCapturesForPieceF] at hm
    split at hm
    case isFalse hcond => exact absurd hp hcond
    case isTrue =>
      rw [List.mem_flatMap] at hm
      obtain ⟨dir, hdir, hm⟩ := hm
      simp only [pawnJump] at hm
      split at hm
      case isFalse => simp at hm
      case isTrue =>
        split at hm
        case isTrue => simp at hm
        case isFalse =>
          split at hm
          case h_2 => simp at hm
          case h_1 _ _ enemyPiece heqe heql =>
            split at hm
            case isFalse => simp at hm
            case isTrue =>
              set landPos : Position :=
                ⟨pos.row + dir.row * 2, pos.col + dir.col * 2⟩ with hland
              by_cases hw : shouldPromote landPos piece.player = true
              · simp only [hw, ite_true] at hm
                split at hm
                · rw [List.mem_map] at hm
                  obtain ⟨c, _, rfl⟩ := hm
                  dsimp only
                  rw [Bool.or_true]
                · rw [List.mem_singleton] at hm
                  subst hm
                  rfl
              · rw [if_neg hw] at hm
                split at hm
                · rw [List.mem_map] at hm
                  obtain ⟨c, hc, rfl⟩ := hm
                  dsimp only at hpromo ⊢
                  rw [ih _ _ _ c hc hpromo]
                  rfl
                · rw [List.mem_singleton] at hm
                  subst hm
                  dsimp only at hpromo
                  exact absurd hpromo hw

/-- The amended claim C5: among the returned moves, every pawn move landing
on that pawn's farthest rank has `isPromotion = true`, and every move of a
king has `isPromotion = false`; but (see the counterexample) a pawn move
with `isPromotion = true` need not land on the farthest rank, because a
chain can promote mid-capture and continue as a king. -/
theorem C5_promotion_flag (board : Board) (player : Player) (m : Move)
    (hm : m ∈ getAllValidMoves board player) (pc : Piece)
    (hpc : getPieceAt board m.«from» = some pc) :
    (pc.type = PieceType.pawn → shouldPromote m.«to» pc.player = true →
      m.isPromotion = true) ∧
    (pc.type = PieceType.king → m.isPromotion = false) := by
  obtain ⟨pos, pc', hpos, hpc', hpl, hmov⟩ := mem_getAllValidMoves_sources hm
  have hfrom_eq : m.«from» = pos := by
    rcases getMovesForPiece_cases hmov with ⟨_, hchain, _⟩ | ⟨_, hnc⟩
    · exact (getCapturesForPiece_spec hchain).1
    · exact (getNonCaptureMovesForPiece_spec hnc).1
  rw [hfrom_eq, hpc'] at hpc
  cases hpc
  rcases getMovesForPiece_cases hmov with ⟨_, hchain, _⟩ | ⟨_, hnc⟩
  · constructor
    · intro hp hpromo
      exact pawn_promotion hp 64 board pos [] m hchain hpromo
    · intro hk
      exact king_no_promotion hk m hchain
  · obtain ⟨_, _, _, _, _, hpawn, hking⟩ := getNonCaptureMovesForPiece_spec hnc
    constructor
    · intro hp hpromo
      rw [hpawn hp, hpromo]
    · exact hking

/-! ### The dark-square invariant (claim C9) -/

/-- All light squares (row + col even) of the 8×8 board are empty. -/
def lightSquaresEmpty (board : Board) : Prop :=
  ∀ q ∈ allPositions, (q.row + q.col) % 2 = 0 → getPieceAt board q = none

instance (board : Board) : Decidable (lightSquaresEmpty board) :=
  List.decidableBAll _ allPositions

theorem mem_getAllValidMoves_parity {board : Board} {player : Player} {m : Move}
    (hm : m ∈ getAllValidMoves board player) :
    (∃ pc, getPieceAt board m.«from» = some pc) ∧
    (m.«to».row + m.«to».col) % 2 = (m.«from».row + m.«from».col) % 2 := by
  obtain ⟨pos, pc, hpos, hpc, hpl, hmov⟩ := mem_getAllValidMoves_sources hm
  rcases getMovesForPiece_cases hmov with ⟨_, hchain, _⟩ | ⟨_, hnc⟩
  · obtain ⟨hfrom, _, _, _, _, _, _, _, _, hpar⟩ := getCapturesForPiece_spec hchain
    subst hfrom
    exact ⟨⟨pc, hpc⟩, hpar⟩
  · obtain ⟨hfrom, _, _, _, hpar, _⟩ := getNonCaptureMovesForPiece_spec hnc
    subst hfrom
    exact ⟨⟨pc, hpc⟩, hpar⟩

/-- Claim C9: the initial board has all light squares empty, and applying
any generated move to a board with empty light squares leaves all light
squares empty — every reachable board keeps the pieces on dark squares. -/
theorem C9_dark_squares :
    lightSquaresEmpty createInitialBoard ∧
    ∀ (board : Board) (player : Player) (m : Move), lightSquaresEmpty board →
      m ∈ getAllValidMoves board player → lightSquaresEmpty (executeMove board m) := by
  constructor
  · intro q hq hpar
    have hv := mem_allPositions.mp hq
    rw [getPieceAt_eq_of_valid hv]
    unfold createInitialBoard
    rw [if_neg (fun hh => by omega)]
  · intro board player m hlight hm q hq hpar
    obtain ⟨⟨pc, hpc⟩, hparto⟩ := mem_getAllValidMoves_parity hm
    have hvf : isValidPosition m.«from» = true := getPieceAt_valid hpc
    have hfrom_parity : (m.«from».row + m.«from».col) % 2 = 1 := by
      have hrange : (m.«from».row + m.«from».col) % 2 = 0 ∨
          (m.«from».row + m.«from».col) % 2 = 1 := by omega
      rcases hrange with h | h
      · have := hlight m.«from» (mem_allPositions.mpr hvf) h
        rw [this] at hpc
        cases hpc
      · exact h
    have hqto : q ≠ m.«to» := by
      intro hh
      rw [hh, hparto, hfrom_parity] at hpar
      cases hpar
    have hexec : executeMove board m =
        setPieceAt (foldClear (setPieceAt board m.«from» none) m.captures) m.«to»
          (some (if m.isPromotion then ⟨pc.player, PieceType.king⟩ else pc)) := by
      unfold executeMove cloneBoard foldClear
      simp only []
      rw [hpc]
    rw [hexec, getPieceAt_setPieceAt_other hqto]
    by_cases hmem : q ∈ m.captures
    · exact getPieceAt_foldClear_mem hmem (mem_allPositions.mp hq)
    · rw [getPieceAt_foldClear_not_mem hmem]
      by_cases hqf : q = m.«from»
      · rw [hqf]
        exact getPieceAt_setPieceAt_same hvf
      · rw [getPieceAt_setPieceAt_other hqf]
        exact hlight q hq hpar

/-! ### The order on scores -/

namespace XInt

theorem le_refl (a : XInt) : le a a := by
  cases a <;> simp [le]

theorem le_trans {a b c : XInt} (h1 : le a b) (h2 : le b c) : le a c := by
  cases a <;> cases b <;> cases c <;> simp_all [le] <;> omega

theorem le_total (a b : XInt) : le a b ∨ le b a := by
  cases a <;> cases b <;> simp [le] <;> omega

theorem le_antisymm {a b : XInt} (h1 : le a b) (h2 : le b a) : a = b := by
  cases a <;> cases b <;> simp_all [le] <;> omega

theorem le_of_lt {a b : XInt} (h : lt a b) : le a b := by
  rcases le_total a b with h' | h'
  · exact h'
  · exact absurd h' h

theorem lt_of_le_of_lt {a b c : XInt} (h1 : le a b) (h2 : lt b c) : lt a c :=
  fun h => h2 (le_trans h h1)

theorem lt_of_lt_of_le {a b c : XInt} (h1 : lt a b) (h2 : le b c) : lt a c :=
  fun h => h1 (le_trans h2 h)

theorem lt_irrefl (a : XInt) : ¬ lt a a := fun h => h (le_refl a)

theorem not_le_iff_lt {a b : XInt} : ¬ le a b ↔ lt b a := by
  constructor
  · intro h
    rcases le_total a b with h' | h'
    · exact absurd h' h
    · exact fun hh => h (by cases le_antisymm h' hh; exact le_refl _)
  · intro h hle
    exact h hle

theorem le_negInf {a : XInt} (h : le a negInf) : a = negInf := by
  cases a <;> simp_all [le]

theorem negInf_le (a : XInt) : le negInf a := by simp [le]

theorem le_posInf (a : XInt) : le a posInf := by cases a <;> simp [le]

theorem negInf_lt_fin (n : Int) : lt negInf (fin n) := by
  intro h
  simp [le] at h

theorem fin_lt_posInf (n : Int) : lt (fin n) posInf := by
  intro h
  simp [le] at h

theorem negInf_lt_posInf : lt negInf posInf := by
  intro h
  simp [le] at h

end XInt

theorem xmax_choice (a b : XInt) : xmax a b = a ∨ xmax a b = b := by
  unfold xmax
  split <;> simp

theorem le_xmax_left (a b : XInt) : XInt.le a (xmax a b) := by
  unfold xmax
  split
  case isTrue h => exact h
  case isFalse h => exact XInt.le_refl a

theorem le_xmax_right (a b : XInt) : XInt.le b (xmax a b) := by
  unfold xmax
  split
  case isTrue h => exact XInt.le_refl b
  case isFalse h => exact XInt.le_of_lt (XInt.not_le_iff_lt.mp h)

theorem xmax_le {a b c : XInt} (h1 : XInt.le a c) (h2 : XInt.le b c) :
    XInt.le (xmax a b) c := by
  rcases xmax_choice a b with h | h <;> rw [h] <;> assumption

theorem le_of_le_xmax {a b c : XInt} (h : XInt.le c (xmax a b)) :
    XInt.le c a ∨ XInt.le c b := by
  rcases xmax_choice a b with hc | hc <;> rw [hc] at h
  · exact Or.inl h
  · exact Or.inr h

theorem xmax_fin_fin (a b : Int) : xmax (XInt.fin a) (XInt.fin b) = XInt.fin (max a b) := by
  unfold xmax
  split
  case isTrue h =>
    simp only [XInt.le] at h
    rw [max_eq_right h]
  case isFalse h =>
    simp only [XInt.le, not_le] at h
    rw [max_eq_left (le_of_lt h)]

theorem xmin_choice (a b : XInt) : xmin a b = a ∨ xmin a b = b := by
  unfold xmin
  split <;> simp

theorem xmin_le_left (a b : XInt) : XInt.le (xmin a b) a := by
  unfold xmin
  split
  case isTrue h => exact XInt.le_refl a
  case isFalse h => exact XInt.le_of_lt (XInt.not_le_iff_lt.mp h)

theorem xmin_le_right (a b : XInt) : XInt.le (xmin a b) b := by
  unfold xmin
  split
  case isTrue h => exact h
  case isFalse h => exact XInt.le_refl b

theorem le_xmin {a b c : XInt} (h1 : XInt.le c a) (h2 : XInt.le c b) :
    XInt.le c (xmin a b) := by
  rcases xmin_choice a b with h | h <;> rw [h] <;> assumption

theorem xmin_le_of_le {a b c : XInt} (h : XInt.le (xmin a b) c) :
    XInt.le a c ∨ XInt.le b c := by
  rcases xmin_choice a b with hc | hc <;> rw [hc] at h
  · exact Or.inl h
  · exact Or.inr h

/-! ### Folded maxima and minima over score lists -/

theorem foldl_xmax_seed_le (l : List XInt) (z : XInt) :
    XInt.le z (l.foldl xmax z) := by
  induction l generalizing z with
  | nil => exact XInt.le_refl z
  | cons x t ih => exact XInt.le_trans (le_xmax_left z x) (ih (xmax z x))

theorem foldl_xmax_mem_le {l : List XInt} {x : XInt} (h : x ∈ l) (z : XInt) :
    XInt.le x (l.foldl xmax z) := by
  induction l generalizing z with
  | nil => cases h
  | cons a t ih =>
    rcases List.mem_cons.mp h with rfl | hx
    · exact XInt.le_trans (le_xmax_right z x) (foldl_xmax_seed_le t (xmax z x))
    · exact ih hx (xmax z a)

theorem foldl_xmax_le {l : List XInt} {z c : XInt} (hz : XInt.le z c)
    (hl : ∀ x ∈ l, XInt.le x c) : XInt.le (l.foldl xmax z) c := by
  induction l generalizing z with
  | nil => exact hz
  | cons a t ih =>
    exact ih (xmax_le hz (hl a (List.mem_cons_self _ _)))
      (fun x hx => hl x (List.mem_cons_of_mem _ hx))

theorem le_foldl_xmax_cases {l : List XInt} {z c : XInt}
    (h : XInt.le c (l.foldl xmax z)) : XInt.le c z ∨ ∃ x ∈ l, XInt.le c x := by
  induction l generalizing z with
  | nil => exact Or.inl h
  | cons a t ih =>
    rcases ih (z := xmax z a) h with h' | ⟨x, hx, hcx⟩
    · rcases le_of_le_xmax h' with h'' | h''
      · exact Or.inl h''
      · exact Or.inr ⟨a, List.mem_cons_self _ _, h''⟩
    · exact Or.inr ⟨x, List.mem_cons_of_mem _ hx, hcx⟩

theorem foldl_xmin_le_seed (l : List XInt) (z : XInt) :
    XInt.le (l.foldl xmin z) z := by
  induction l generalizing z with
  | nil => exact XInt.le_refl z
  | cons x t ih => exact XInt.le_trans (ih (xmin z x)) (xmin_le_left z x)

theorem foldl_xmin_le_mem {l : List XInt} {x : XInt} (h : x ∈ l) (z : XInt) :
    XInt.le (l.foldl xmin z) x := by
  induction l generalizing z with
  | nil => cases h
  | cons a t ih =>
    rcases List.mem_cons.mp h with rfl | hx
    · exact XInt.le_trans (foldl_xmin_le_seed t (xmin z x)) (xmin_le_right z x)
    · exact ih hx (xmin z a)

theorem le_foldl_xmin {l : List XInt} {z c : XInt} (hz : XInt.le c z)
    (hl : ∀ x ∈ l, XInt.le c x) : XInt.le c (l.foldl xmin z) := by
  induction l generalizing z with
  | nil => exact hz
  | cons a t ih =>
    exact ih (le_xmin hz (hl a (List.mem_cons_self _ _)))
      (fun x hx => hl x (List.mem_cons_of_mem _ hx))

theorem foldl_xmin_le_cases {l : List XInt} {z c : XInt}
    (h : XInt.le (l.foldl xmin z) c) : XInt.le z c ∨ ∃ x ∈ l, XInt.le x c := by
  induction l generalizing z with
  | nil => exact Or.inl h
  | cons a t ih =>
    rcases ih (z := xmin z a) h with h' | ⟨x, hx, hcx⟩
    · rcases xmin_le_of_le h' with h'' | h''
      · exact Or.inl h''
      · exact Or.inr ⟨a, List.mem_cons_self _ _, h''⟩
    · exact Or.inr ⟨x, List.mem_cons_of_mem _ hx, hcx⟩

/-! ### Fail-soft alpha-beta is exact inside the window (Knuth–Moore) -/

/-- The maximizing loop of `minimax`, related to the plain folded maximum
of the children's true values `Fc`: the fail-soft result is a lower bound
when it falls at or below `alpha`, an upper bound when it reaches `beta`,
and exact strictly inside the window. -/
theorem abMaxLoop_km {f : Board → XInt → XInt → XInt} {board : Board} {β : XInt}
    {Fc : Move → XInt} :
    ∀ ms : List Move,
      (∀ m ∈ ms, ∀ α, XInt.lt α β →
        (XInt.le (f (executeMove board m) α β) α →
          XInt.le (Fc m) (f (executeMove board m) α β)) ∧
        (XInt.le β (f (executeMove board m) α β) →
          XInt.le (f (executeMove board m) α β) (Fc m)) ∧
        (XInt.lt α (f (executeMove board m) α β) →
          XInt.lt (f (executeMove board m) α β) β →
          f (executeMove board m) α β = Fc m)) →
      ∀ α acc : XInt, XInt.le acc α → XInt.lt α β →
        XInt.le acc (abMaxLoop f board ms α β acc) ∧
        (XInt.le (abMaxLoop f board ms α β acc) α →
          XInt.le ((ms.map Fc).foldl xmax acc) (abMaxLoop f board ms α β acc)) ∧
        (XInt.le β (abMaxLoop f board ms α β acc) →
          XInt.le (abMaxLoop f board ms α β acc) ((ms.map Fc).foldl xmax acc)) ∧
        (XInt.lt α (abMaxLoop f board ms α β acc) →
          XInt.lt (abMaxLoop f board ms α β acc) β →
          abMaxLoop f board ms α β acc = (ms.map Fc).foldl xmax acc) := by
  intro ms
  induction ms with
  | nil =>
    intro _ α acc hacc hαβ
    exact ⟨XInt.le_refl acc, fun _ => XInt.le_refl acc, fun _ => XInt.le_refl acc,
      fun _ _ => rfl⟩
  | cons m rest ih =>
    intro hkm α acc hacc hαβ
    have hkm_rest := fun m' hm' => hkm m' (List.mem_cons_of_mem _ hm')
    obtain ⟨km1, km2, km3⟩ := hkm m (List.mem_cons_self _ _) α hαβ
    set e := f (executeMove board m) α β with he
    have hun : abMaxLoop f board (m :: rest) α β acc =
        if XInt.le β (xmax α e) then xmax acc e
        else abMaxLoop f board rest (xmax α e) β (xmax acc e) := rfl
    have hPun : ((m :: rest).map Fc).foldl xmax acc =
        (rest.map Fc).foldl xmax (xmax acc (Fc m)) := rfl
    have hseedP : XInt.le (xmax acc (Fc m))
        ((rest.map Fc).foldl xmax (xmax acc (Fc m))) := foldl_xmax_seed_le _ _
    by_cases hbr : XInt.le β (xmax α e)
    · -- prune: the loop returns `xmax acc e` at once
      rw [hun, if_pos hbr, hPun]
      have hβe : XInt.le β e := (le_of_le_xmax hbr).resolve_left hαβ
      have heF : XInt.le e (Fc m) := km2 hβe
      refine ⟨le_xmax_left acc e, ?_, ?_, ?_⟩
      · intro hRα
        exact absurd (XInt.le_trans hβe (XInt.le_trans (le_xmax_right acc e) hRα)) hαβ
      · intro _
        refine xmax_le ?_ ?_
        · exact XInt.le_trans (le_xmax_left acc (Fc m)) hseedP
        · exact XInt.le_trans heF (XInt.le_trans (le_xmax_right acc (Fc m)) hseedP)
      · intro _ hRβ
        exact absurd (XInt.le_trans hβe (le_xmax_right acc e)) hRβ
    · -- no prune: continue with the widened running values
      have hα'β : XInt.lt (xmax α e) β := XInt.not_le_iff_lt.mp hbr
      have hacc' : XInt.le (xmax acc e) (xmax α e) :=
        xmax_le (XInt.le_trans hacc (le_xmax_left α e)) (le_xmax_right α e)
      obtain ⟨ihA, ihB, ihC, ihD⟩ := ih hkm_rest (xmax α e) (xmax acc e) hacc' hα'β
      rw [hun, if_neg hbr, hPun]
      set R := abMaxLoop f board rest (xmax α e) β (xmax acc e) with hR
      have haccR : XInt.le acc R := XInt.le_trans (le_xmax_left acc e) ihA
      have heR : XInt.le e R := XInt.le_trans (le_xmax_right acc e) ihA
      refine ⟨haccR, ?_, ?_, ?_⟩
      · -- R ≤ α
        intro hRα
        have heα : XInt.le e α := XInt.le_trans heR hRα
        have hFme : XInt.le (Fc m) e := km1 heα
        have hP'R : XInt.le ((rest.map Fc).foldl xmax (xmax acc e)) R :=
          ihB (XInt.le_trans hRα (le_xmax_left α e))
        refine foldl_xmax_le (xmax_le haccR (XInt.le_trans hFme heR)) ?_
        intro x hx
        exact XInt.le_trans (foldl_xmax_mem_le hx (xmax acc e)) hP'R
      · -- β ≤ R
        intro hβR
        have hRP' : XInt.le R ((rest.map Fc).foldl xmax (xmax acc e)) := ihC hβR
        rcases le_foldl_xmax_cases hRP' with hRacc' | ⟨x, hx, hRx⟩
        · rcases le_of_le_xmax hRacc' with hRacc | hRe
          · exact absurd (XInt.le_trans hβR (XInt.le_trans hRacc hacc)) hαβ
          · have heFm : XInt.le e (Fc m) := km2 (XInt.le_trans hβR hRe)
            exact XInt.le_trans hRe (XInt.le_trans heFm
              (XInt.le_trans (le_xmax_right acc (Fc m)) hseedP))
        · exact XInt.le_trans hRx (foldl_xmax_mem_le hx (xmax acc (Fc m)))
      · -- α < R < β: exact
        intro hαR hRβ
        have hRleP : XInt.le R ((rest.map Fc).foldl xmax (xmax acc (Fc m))) := by
          have hRP' : XInt.le R ((rest.map Fc).foldl xmax (xmax acc e)) := by
            by_cases hRα' : XInt.le R (xmax α e)
            · rcases le_of_le_xmax hRα' with hRα2 | hRe2
              · exact absurd hRα2 hαR
              · have hRe3 : R = e := XInt.le_antisymm hRe2 heR
                rw [← hRe3]
                exact XInt.le_trans (le_xmax_right acc R) (foldl_xmax_seed_le _ _)
            · rw [ihD (XInt.not_le_iff_lt.mp hRα') hRβ]
              exact XInt.le_refl _
          rcases le_foldl_xmax_cases hRP' with hRacc' | ⟨x, hx, hRx⟩
          · rcases le_of_le_xmax hRacc' with hRacc | hRe
            · exact absurd (XInt.le_trans hRacc hacc) hαR
            · have hRe3 : R = e := XInt.le_antisymm hRe heR
              have hFme : e = Fc m := km3 (hRe3 ▸ hαR) (hRe3 ▸ hRβ)
              rw [hRe3, hFme]
              exact XInt.le_trans (le_xmax_right acc (Fc m)) hseedP
          · exact XInt.le_trans hRx (foldl_xmax_mem_le hx (xmax acc (Fc m)))
        have hPleR : XInt.le ((rest.map Fc).foldl xmax (xmax acc (Fc m))) R := by
          have hFmR : XInt.le (Fc m) R := by
            by_cases heα : XInt.le e α
            · exact XInt.le_trans (km1 heα) heR
            · have hlt1 : XInt.lt α e := XInt.not_le_iff_lt.mp heα
              have hlt2 : XInt.lt e β := XInt.lt_of_le_of_lt heR hRβ
              rw [← km3 hlt1 hlt2]
              exact heR
          refine foldl_xmax_le (xmax_le haccR hFmR) ?_
          intro x hx
          by_cases hRα' : XInt.le R (xmax α e)
          · exact XInt.le_trans (foldl_xmax_mem_le hx (xmax acc e)) (ihB hRα')
          · rw [ihD (XInt.not_le_iff_lt.mp hRα') hRβ]
            exact foldl_xmax_mem_le hx (xmax acc e)
        exact XInt.le_antisymm hRleP hPleR

/-- The minimizing loop of `minimax`, dual to `abMaxLoop_km`. -/
theorem abMinLoop_km {f : Board → XInt → XInt → XInt} {board : Board} {α : XInt}
    {Fc : Move → XInt} :
    ∀ ms : List Move,
      (∀ m ∈ ms, ∀ β, XInt.lt α β →
        (XInt.le (f (executeMove board m) α β) α →
          XInt.le (Fc m) (f (executeMove board m) α β)) ∧
        (XInt.le β (f (executeMove board m) α β) →
          XInt.le (f (executeMove board m) α β) (Fc m)) ∧
        (XInt.lt α (f (executeMove board m) α β) →
          XInt.lt (f (executeMove board m) α β) β →
          f (executeMove board m) α β = Fc m)) →
      ∀ β acc : XInt, XInt.le β acc → XInt.lt α β →
        XInt.le (abMinLoop f board ms α β acc) acc ∧
        (XInt.le β (abMinLoop f board ms α β acc) →
          XInt.le (abMinLoop f board ms α β acc) ((ms.map Fc).foldl xmin acc)) ∧
        (XInt.le (abMinLoop f board ms α β acc) α →
          XInt.le ((ms.map Fc).foldl xmin acc) (abMinLoop f board ms α β acc)) ∧
        (XInt.lt α (abMinLoop f board ms α β acc) →
          XInt.lt (abMinLoop f board ms α β acc) β →
          abMinLoop f board ms α β acc = (ms.map Fc).foldl xmin acc) := by
  intro ms
  induction ms with
  | nil =>
    intro _ β acc hacc hαβ
    exact ⟨XInt.le_refl acc, fun _ => XInt.le_refl acc, fun _ => XInt.le_refl acc,
      fun _ _ => rfl⟩
  | cons m rest ih =>
    intro hkm β acc hacc hαβ
    have hkm_rest := fun m' hm' => hkm m' (List.mem_cons_of_mem _ hm')
    obtain ⟨km1, km2, km3⟩ := hkm m (List.mem_cons_self _ _) β hαβ
    set e := f (executeMove board m) α β with he
    have hun : abMinLoop f board (m :: rest) α β acc =
        if XInt.le (xmin β e) α then xmin acc e
        else abMinLoop f board rest α (xmin β e) (xmin acc e) := rfl
    have hPun : ((m :: rest).map Fc).foldl xmin acc =
        (rest.map Fc).foldl xmin (xmin acc (Fc m)) := rfl
    have hseedP : XInt.le ((rest.map Fc).foldl xmin (xmin acc (Fc m)))
        (xmin acc (Fc m)) := foldl_xmin_le_seed _ _
    by_cases hbr : XInt.le (xmin β e) α
    · -- prune: the loop returns `xmin acc e` at once
      rw [hun, if_pos hbr, hPun]
      have heα : XInt.le e α := (xmin_le_of_le hbr).resolve_left hαβ
      have hFe : XInt.le (Fc m) e := km1 heα
      refine ⟨xmin_le_left acc e, ?_, ?_, ?_⟩
      · intro hβR
        exact absurd (XInt.le_trans hβR (XInt.le_trans (xmin_le_right acc e) heα)) hαβ
      · intro _
        refine le_xmin ?_ ?_
        · exact XInt.le_trans hseedP (xmin_le_left acc (Fc m))
        · exact XInt.le_trans hseedP (XInt.le_trans (xmin_le_right acc (Fc m)) hFe)
      · intro hαR _
        exact absurd (XInt.le_trans (xmin_le_right acc e) heα) hαR
    · -- no prune: continue with the narrowed running values
      have hαβ' : XInt.lt α (xmin β e) := XInt.not_le_iff_lt.mp hbr
      have hacc' : XInt.le (xmin β e) (xmin acc e) :=
        le_xmin (XInt.le_trans (xmin_le_left β e) hacc) (xmin_le_right β e)
      obtain ⟨ihA, ihB, ihC, ihD⟩ := ih hkm_rest (xmin β e) (xmin acc e) hacc' hαβ'
      rw [hun, if_neg hbr, hPun]
      set R := abMinLoop f board rest α (xmin β e) (xmin acc e) with hR
      have haccR : XInt.le R acc := XInt.le_trans ihA (xmin_le_left acc e)
      have heR : XInt.le R e := XInt.le_trans ihA (xmin_le_right acc e)
      refine ⟨haccR, ?_, ?_, ?_⟩
      · -- β ≤ R
        intro hβR
        have hβe : XInt.le β e := XInt.le_trans hβR heR
        have heFm : XInt.le e (Fc m) := km2 hβe
        have hRP' : XInt.le R ((rest.map Fc).foldl xmin (xmin acc e)) :=
          ihB (XInt.le_trans (xmin_le_left β e) hβR)
        refine le_foldl_xmin (le_xmin haccR (XInt.le_trans heR heFm)) ?_
        intro x hx
        exact XInt.le_trans hRP' (foldl_xmin_le_mem hx (xmin acc e))
      · -- R ≤ α
        intro hRα
        have hP'R : XInt.le ((rest.map Fc).foldl xmin (xmin acc e)) R := ihC hRα
        rcases foldl_xmin_le_cases hP'R with hacc'R | ⟨x, hx, hxR⟩
        · rcases xmin_le_of_le hacc'R with haccT | heT
          · exact absurd (XInt.le_trans hacc (XInt.le_trans haccT hRα)) hαβ
          · have hFme : XInt.le (Fc m) e := km1 (XInt.le_trans heT hRα)
            exact XInt.le_trans (XInt.le_trans hseedP
              (XInt.le_trans (xmin_le_right acc (Fc m)) hFme)) heT
        · exact XInt.le_trans (foldl_xmin_le_mem hx (xmin acc (Fc m))) hxR
      · -- α < R < β: exact
        intro hαR hRβ
        have hPleR : XInt.le ((rest.map Fc).foldl xmin (xmin acc (Fc m))) R := by
          have hP'R : XInt.le ((rest.map Fc).foldl xmin (xmin acc e)) R := by
            by_cases hβ'R : XInt.le (xmin β e) R
            · rcases xmin_le_of_le hβ'R with hβR2 | heR2
              · exact absurd hβR2 hRβ
              · have hRe3 : R = e := XInt.le_antisymm heR heR2
                rw [← hRe3]
                exact XInt.le_trans (foldl_xmin_le_seed _ _) (xmin_le_right acc R)
            · rw [ihD hαR (XInt.not_le_iff_lt.mp hβ'R)]
              exact XInt.le_refl _
          rcases foldl_xmin_le_cases hP'R with hacc'R | ⟨x, hx, hxR⟩
          · rcases xmin_le_of_le hacc'R with haccT | heT
            · exact absurd (XInt.le_trans hacc haccT) hRβ
            · have hRe3 : R = e := XInt.le_antisymm heR heT
              have hFme : e = Fc m := km3 (hRe3 ▸ hαR) (hRe3 ▸ hRβ)
              rw [hRe3, hFme]
              exact XInt.le_trans hseedP (xmin_le_right acc (Fc m))
          · exact XInt.le_trans (foldl_xmin_le_mem hx (xmin acc (Fc m))) hxR
        have hRleP : XInt.le R ((rest.map Fc).foldl xmin (xmin acc (Fc m))) := by
          have hRFm : XInt.le R (Fc m) := by
            by_cases hβe : XInt.le β e
            · exact XInt.le_trans heR (km2 hβe)
            · have hlt2 : XInt.lt e β := XInt.not_le_iff_lt.mp hβe
              have hlt1 : XInt.lt α e := XInt.lt_of_lt_of_le hαR heR
              rw [← km3 hlt1 hlt2]
              exact heR
          refine le_foldl_xmin (le_xmin haccR hRFm) ?_
          intro x hx
          by_cases hβ'R : XInt.le (xmin β e) R
          · exact XInt.le_trans (ihB hβ'R) (foldl_xmin_le_mem hx (xmin acc e))
          · rw [ihD hαR (XInt.not_le_iff_lt.mp hβ'R)]
            exact foldl_xmin_le_mem hx (xmin acc e)
        exact XInt.le_antisymm hRleP hPleR

/-- Knuth–Moore for the whole search: the fail-soft pruned `minimax` is a
lower bound of the plain value below `alpha`, an upper bound above `beta`,
and exactly the plain value strictly inside the window. -/
theorem minimax_km :
    ∀ (d : Nat) (board : Board) (α β : XInt) (mx : Bool) (ai cur : Player),
      XInt.lt α β →
      (XInt.le (minimax d board α β mx ai cur) α →
        XInt.le (plainMinimax d board mx ai cur) (minimax d board α β mx ai cur)) ∧
      (XInt.le β (minimax d board α β mx ai cur) →
        XInt.le (minimax d board α β mx ai cur) (plainMinimax d board mx ai cur)) ∧
      (XInt.lt α (minimax d board α β mx ai cur) →
        XInt.lt (minimax d board α β mx ai cur) β →
        minimax d board α β mx ai cur = plainMinimax d board mx ai cur) := by
  intro d
  induction d with
  | zero =>
    intro board α β mx ai cur _
    simp only [minimax, plainMinimax]
    exact ⟨fun _ => XInt.le_refl _, fun _ => XInt.le_refl _, fun _ _ => by trivial⟩
  | succ n ih =>
    intro board α β mx ai cur hαβ
    rw [minimax, plainMinimax]
    by_cases hmoves : (getAllValidMoves board cur).length = 0
    · rw [if_pos hmoves, if_pos hmoves]
      exact ⟨fun _ => XInt.le_refl _, fun _ => XInt.le_refl _, fun _ _ => rfl⟩
    · rw [if_neg hmoves, if_neg hmoves]
      cases mx
      · -- minimizing node
        rw [if_neg (by simp), if_neg (by simp)]
        obtain ⟨_, B, C, D⟩ := @abMinLoop_km
          (fun nb a b => minimax n nb a b true ai (getOpponent cur))
          board α
          (fun m2 => plainMinimax n (executeMove board m2) true ai (getOpponent cur))
          (getAllValidMoves board cur)
          (fun m2 _ β' hαβ' => ih (executeMove board m2) α β' true ai (getOpponent cur) hαβ')
          β XInt.posInf (XInt.le_posInf β) hαβ
        exact ⟨C, B, D⟩
      · -- maximizing node
        rw [if_pos (by trivial), if_pos (by trivial)]
        obtain ⟨_, B, C, D⟩ := @abMaxLoop_km
          (fun nb a b => minimax n nb a b false ai (getOpponent cur))
          board β
          (fun m2 => plainMinimax n (executeMove board m2) false ai (getOpponent cur))
          (getAllValidMoves board cur)
          (fun m2 _ α' hα'β => ih (executeMove board m2) α' β false ai (getOpponent cur) hα'β)
          α XInt.negInf (XInt.negInf_le α) hαβ
        exact ⟨B, C, D⟩

/-! ### The search always returns a finite score -/

theorem xmax_negInf_left (x : XInt) : xmax XInt.negInf x = x := by
  unfold xmax
  rw [if_pos (XInt.negInf_le x)]

theorem xmin_posInf_left (x : XInt) : xmin XInt.posInf x = x := by
  unfold xmin
  by_cases h : XInt.le XInt.posInf x
  · rw [if_pos h]
    cases x <;> simp_all [XInt.le]
  · rw [if_neg h]

theorem xmax_fin_of_ne_posInf {acc : XInt} (h : acc ≠ XInt.posInf) (n : Int) :
    ∃ j, xmax acc (XInt.fin n) = XInt.fin j := by
  cases acc
  case negInf => exact ⟨n, xmax_negInf_left _⟩
  case fin k => exact ⟨max k n, xmax_fin_fin k n⟩
  case posInf => exact absurd rfl h

theorem xmin_fin_of_ne_negInf {acc : XInt} (h : acc ≠ XInt.negInf) (n : Int) :
    ∃ j, xmin acc (XInt.fin n) = XInt.fin j := by
  cases acc
  case negInf => exact absurd rfl h
  case fin k =>
    refine ⟨min k n, ?_⟩
    unfold xmin
    split
    case isTrue h2 => simp only [XInt.le] at h2; rw [min_eq_left h2]
    case isFalse h2 =>
      simp only [XInt.le, not_le] at h2
      rw [min_eq_right (le_of_lt h2)]
  case posInf => exact ⟨n, xmin_posInf_left _⟩

theorem abMaxLoop_fin {f : Board → XInt → XInt → XInt} {board : Board} {β : XInt}
    (hf : ∀ (m : Move) (α' : XInt), ∃ n, f (executeMove board m) α' β = XInt.fin n) :
    ∀ (ms : List Move) (α acc : XInt),
      ((∃ k, acc = XInt.fin k) ∨ (acc = XInt.negInf ∧ ms ≠ [])) →
      ∃ n, abMaxLoop f board ms α β acc = XInt.fin n := by
  intro ms
  induction ms with
  | nil =>
    intro α acc hacc
    rcases hacc with ⟨k, rfl⟩ | ⟨_, hne⟩
    · exact ⟨k, rfl⟩
    · exact absurd rfl hne
  | cons m rest ih =>
    intro α acc hacc
    obtain ⟨n, hn⟩ := hf m α
    have haccne : acc ≠ XInt.posInf := by
      rcases hacc with ⟨k, rfl⟩ | ⟨rfl, _⟩ <;> intro h <;> cases h
    obtain ⟨j, hj⟩ := xmax_fin_of_ne_posInf haccne n
    rw [← hn] at hj
    show ∃ n2, (if XInt.le β (xmax α (f (executeMove board m) α β))
      then xmax acc (f (executeMove board m) α β)
      else abMaxLoop f board rest (xmax α (f (executeMove board m) α β)) β
        (xmax acc (f (executeMove board m) α β))) = XInt.fin n2
    split
    · exact ⟨j, hj⟩
    · exact ih _ _ (Or.inl ⟨j, hj⟩)

theorem abMinLoop_fin {f : Board → XInt → XInt → XInt} {board : Board} {α : XInt}
    (hf : ∀ (m : Move) (β' : XInt), ∃ n, f (executeMove board m) α β' = XInt.fin n) :
    ∀ (ms : List Move) (β acc : XInt),
      ((∃ k, acc = XInt.fin k) ∨ (acc = XInt.posInf ∧ ms ≠ [])) →
      ∃ n, abMinLoop f board ms α β acc = XInt.fin n := by
  intro ms
  induction ms with
  | nil =>
    intro β acc hacc
    rcases hacc with ⟨k, rfl⟩ | ⟨_, hne⟩
    · exact ⟨k, rfl⟩
    · exact absurd rfl hne
  | cons m rest ih =>
    intro β acc hacc
    obtain ⟨n, hn⟩ := hf m β
    have haccne : acc ≠ XInt.negInf := by
      rcases hacc with ⟨k, rfl⟩ | ⟨rfl, _⟩ <;> intro h <;> cases h
    obtain ⟨j, hj⟩ := xmin_fin_of_ne_negInf haccne n
    rw [← hn] at hj
    show ∃ n2, (if XInt.le (xmin β (f (executeMove board m) α β)) α
      then xmin acc (f (executeMove board m) α β)
      else abMinLoop f board rest α (xmin β (f (executeMove board m) α β))
        (xmin acc (f (executeMove board m) α β))) = XInt.fin n2
    split
    · exact ⟨j, hj⟩
    · exact ih _ _ (Or.inl ⟨j, hj⟩)

theorem minimax_fin :
    ∀ (d : Nat) (board : Board) (α β : XInt) (mx : Bool) (ai cur : Player),
      ∃ n, minimax d board α β mx ai cur = XInt.fin n := by
  intro d
  induction d with
  | zero =>
    intro board α β mx ai cur
    exact ⟨evaluateBoard board ai, rfl⟩
  | succ n ih =>
    intro board α β mx ai cur
    rw [minimax]
    by_cases hmoves : (getAllValidMoves board cur).length = 0
    · rw [if_pos hmoves]
      exact ⟨_, rfl⟩
    · rw [if_neg hmoves]
      have hne : getAllValidMoves board cur ≠ [] := by
        intro h
        rw [h] at hmoves
        exact hmoves rfl
      cases mx
      · rw [if_neg (by simp)]
        exact abMinLoop_fin (fun m β' => ih (executeMove board m) α β' true ai
          (getOpponent cur)) _ β XInt.posInf (Or.inr ⟨rfl, hne⟩)
      · rw [if_pos (by trivial)]
        exact abMaxLoop_fin (fun m α' => ih (executeMove board m) α' β false ai
          (getOpponent cur)) _ α XInt.negInf (Or.inr ⟨rfl, hne⟩)

/-! ### The move-selection loop of `getBestMove` -/

theorem lt_xmax_eq {s e : XInt} (h : XInt.lt s e) : xmax s e = e := by
  unfold xmax
  rw [if_pos (XInt.le_of_lt h)]

theorem not_lt_xmax_eq {s e : XInt} (h : ¬ XInt.lt s e) : xmax s e = s := by
  unfold xmax
  split
  case isTrue h2 =>
    unfold XInt.lt at h
    rw [not_not] at h
    exact XInt.le_antisymm h h2
  case isFalse h2 => rfl

theorem bestLoop_mem {g : Move → XInt} :
    ∀ (ms : List Move) (best : Option Move) (score : XInt) (m : Move),
      bestLoop g ms best score = some m → best = some m ∨ m ∈ ms := by
  intro ms
  induction ms with
  | nil =>
    intro best score m hm
    exact Or.inl hm
  | cons a rest ih =>
    intro best score m hm
    rw [bestLoop] at hm
    split at hm
    · rcases ih _ _ _ hm with h | h
      · cases h
        exact Or.inr (List.mem_cons_self _ _)
      · exact Or.inr (List.mem_cons_of_mem _ h)
    · rcases ih _ _ _ hm with h | h
      · exact Or.inl h
      · exact Or.inr (List.mem_cons_of_mem _ h)

theorem bestLoop_charac {g : Move → XInt} :
    ∀ (ms : List Move) (best : Option Move) (score : XInt),
      (bestLoop g ms best score = best ∧
        ms.foldl (fun s m => xmax s (g m)) score = score) ∨
      (∃ m ∈ ms, bestLoop g ms best score = some m ∧
        g m = ms.foldl (fun s m => xmax s (g m)) score) := by
  intro ms
  induction ms with
  | nil =>
    intro best score
    exact Or.inl ⟨rfl, rfl⟩
  | cons a rest ih =>
    intro best score
    rw [bestLoop, List.foldl_cons]
    by_cases hlt : XInt.lt score (g a)
    · rw [if_pos hlt, lt_xmax_eq hlt]
      rcases ih (some a) (g a) with ⟨h1, h2⟩ | ⟨m, hmem, h1, h2⟩
      · exact Or.inr ⟨a, List.mem_cons_self _ _, h1, h2.symm ▸ h2⟩
      · exact Or.inr ⟨m, List.mem_cons_of_mem _ hmem, h1, h2⟩
    · rw [if_neg hlt, not_lt_xmax_eq hlt]
      rcases ih best score with ⟨h1, h2⟩ | ⟨m, hmem, h1, h2⟩
      · exact Or.inl ⟨h1, h2⟩
      · exact Or.inr ⟨m, List.mem_cons_of_mem _ hmem, h1, h2⟩

theorem fused_foldl_eq {g : Move → XInt} (ms : List Move) (z : XInt) :
    ms.foldl (fun s m => xmax s (g m)) z = (ms.map g).foldl xmax z := by
  rw [List.foldl_map]

/-! ### Claims C6, C8 and C10 -/

/-- The exact plain value of one root child: at the root `getBestMove`
evaluates every child with the full window `(-∞, +∞)`, where the fail-soft
alpha-beta value coincides with the plain minimax value. -/
theorem root_child_exact (d : Nat) (board : Board) (ai cur : Player) :
    minimax d board XInt.negInf XInt.posInf false ai cur =
      plainMinimax d board false ai cur := by
  obtain ⟨n, hn⟩ := minimax_fin d board XInt.negInf XInt.posInf false ai cur
  refine (minimax_km d board XInt.negInf XInt.posInf false ai cur
    XInt.negInf_lt_posInf).2.2 ?_ ?_
  · rw [hn]
    exact XInt.negInf_lt_fin n
  · rw [hn]
    exact XInt.fin_lt_posInf n

/-- Claim C6 (alpha-beta soundness): for difficulties other than easy (the
claim excludes the easy tier's random substitution), any move selected by
`getBestMove` is legal and its plain, unpruned minimax score at the same
depth is tied for best among all legal moves. -/
theorem C6_alphabeta_soundness (board : Board) (player : Player)
    (difficulty : AIDifficulty) (r1n r1d r2n r2d : Nat) (m : Move)
    (hdiff : difficulty ≠ AIDifficulty.easy)
    (hm : getBestMove board player difficulty r1n r1d r2n r2d = some m) :
    m ∈ getAllValidMoves board player ∧
    ∀ m' ∈ getAllValidMoves board player,
      XInt.le
        (plainMinimax (DIFFICULTY_DEPTH difficulty - 1) (executeMove board m') false
          player (getOpponent player))
        (plainMinimax (DIFFICULTY_DEPTH difficulty - 1) (executeMove board m) false
          player (getOpponent player)) := by
  rw [getBestMove] at hm
  split at hm
  case isTrue => cases hm
  case isFalse hlen0 =>
    split at hm
    case isTrue hlen1 =>
      obtain ⟨a, ha⟩ := List.length_eq_one.mp hlen1
      rw [ha] at hm ⊢
      simp only [List.getD] at hm
      cases hm
      constructor
      · simp
      · intro m' hm'
        rw [List.mem_singleton] at hm'
        subst hm'
        exact XInt.le_refl _
    case isFalse hlen1 =>
      rw [if_neg (fun hh => hdiff hh.1)] at hm
      set g : Move → XInt := fun move => minimax (DIFFICULTY_DEPTH difficulty - 1)
        (executeMove board move) XInt.negInf XInt.posInf false player
        (getOpponent player) with hg
      have hgplain : ∀ move, g move = plainMinimax (DIFFICULTY_DEPTH difficulty - 1)
          (executeMove board move) false player (getOpponent player) := fun move =>
        root_child_exact _ _ _ _
      rcases bestLoop_charac (g := g) (getAllValidMoves board player) none XInt.negInf
        with ⟨h1, _⟩ | ⟨m0, hmem, h1, h2⟩
      · rw [hm] at h1
        cases h1
      · rw [hm] at h1
        cases h1
        refine ⟨hmem, ?_⟩
        intro m' hm'
        have hle : XInt.le (g m') ((getAllValidMoves board player).foldl
            (fun s mv => xmax s (g mv)) XInt.negInf) := by
          rw [fused_foldl_eq]
          exact foldl_xmax_mem_le (List.mem_map.mpr ⟨m', hm', rfl⟩) _
        rw [← h2] at hle
        rw [← hgplain m', ← hgplain m]
        exact hle

/-- Claim C10: whatever the difficulty (including the easy tier's random
branch, provided the random draw lies in `[0,1)`), a move returned by
`getBestMove` is always an element of `getAllValidMoves`. -/
theorem C10_ai_legal (board : Board) (player : Player) (difficulty : AIDifficulty)
    (r1n r1d r2n r2d : Nat) (m : Move) (hr1 : r1n < r1d)
    (hm : getBestMove board player difficulty r1n r1d r2n r2d = some m) :
    m ∈ getAllValidMoves board player := by
  rw [getBestMove] at hm
  split at hm
  case isTrue => cases hm
  case isFalse hlen0 =>
    split at hm
    case isTrue hlen1 =>
      obtain ⟨a, ha⟩ := List.length_eq_one.mp hlen1
      rw [ha] at hm ⊢
      simp only [List.getD] at hm
      cases hm
      simp
    case isFalse hlen1 =>
      split at hm
      case isTrue =>
        rw [Option.some.injEq] at hm
        subst hm
        have hd : 0 < r1d := by omega
        have hklen : 0 < min 3 (getAllValidMoves board player).length := by
          rw [Nat.lt_min]
          constructor
          · omega
          · omega
        have hidx : r1n * min 3 (getAllValidMoves board player).length / r1d <
            (getAllValidMoves board player).length := by
          have hlt : r1n * min 3 (getAllValidMoves board player).length / r1d <
              min 3 (getAllValidMoves board player).length := by
            rw [Nat.div_lt_iff_lt_mul (by omega)]
            have h3 := Nat.mul_lt_mul_of_lt_of_le hr1
              (Nat.le_refl (min 3 (getAllValidMoves board player).length)) hklen
            calc r1n * min 3 (getAllValidMoves board player).length
                < r1d * min 3 (getAllValidMoves board player).length := by
                  exact Nat.mul_lt_mul_of_pos_right hr1 hklen
              _ = min 3 (getAllValidMoves board player).length * r1d := Nat.mul_comm _ _
          exact lt_of_lt_of_le hlt (Nat.min_le_right _ _)
        rw [List.getD_eq_getElem _ _ hidx]
        exact List.getElem_mem _
      case isFalse =>
        rcases bestLoop_mem _ _ _ _ hm with h | h
        · cases h
        · exact h

/-- The amended claim C8: `getBestMove` returns `none` exactly when the
player has no legal move at all — which happens not only when the player
has no pieces, but also when all of the player's pieces are blocked. -/
theorem C8_bestmove_none_iff (board : Board) (player : Player)
    (difficulty : AIDifficulty) (r1n r1d r2n r2d : Nat) (hr1 : r1n < r1d) :
    (getBestMove board player difficulty r1n r1d r2n r2d = none ↔
      getAllValidMoves board player = []) := by
  constructor
  · intro hnone
    by_contra hne
    rw [getBestMove] at hnone
    rw [if_neg (by simpa [List.length_eq_zero] using hne)] at hnone
    split at hnone
    case isTrue => cases hnone
    case isFalse hlen1 =>
      split at hnone
      case isTrue => cases hnone
      case isFalse =>
        set g : Move → XInt := fun move => minimax (DIFFICULTY_DEPTH difficulty - 1)
          (executeMove board move) XInt.negInf XInt.posInf false player
          (getOpponent player) with hg
        rcases bestLoop_charac (g := g) (getAllValidMoves board player) none XInt.negInf
          with ⟨_, h2⟩ | ⟨m0, _, h1, _⟩
        · rcases hl : getAllValidMoves board player with _ | ⟨m0, rest⟩
          · exact hne hl
          · obtain ⟨n, hn⟩ := minimax_fin (DIFFICULTY_DEPTH difficulty - 1)
              (executeMove board m0) XInt.negInf XInt.posInf false player
              (getOpponent player)
            have hmem : XInt.le (g m0) ((getAllValidMoves board player).foldl
                (fun s mv => xmax s (g mv)) XInt.negInf) := by
              rw [fused_foldl_eq]
              refine foldl_xmax_mem_le (List.mem_map.mpr ⟨m0, ?_, rfl⟩) _
              rw [hl]
              exact List.mem_cons_self _ _
            rw [h2] at hmem
            have := XInt.le_negInf hmem
            rw [hg] at this
            simp only [] at this
            rw [hn] at this
            cases this
        · rw [hnone] at h1
          cases h1
  · intro hnil
    rw [getBestMove, if_pos (by simp [hnil])]

/-! ### Claim C4: stalemate-as-loss in the game-end evaluator -/

/-- The amended claim C4: the engine's `checkGameEnd` implements
stalemate-as-loss — when the opponent still has pieces and the side to
move has pieces but no legal move, the game is reported as ended with the
opponent as winner — and it never reports a draw (whenever it reports the
game ended, a winner is named).  The Session Coordinator's own simplified
`checkGameEnd`, however, only counts pieces and does not detect a blocked
side (see the counterexample). -/
theorem C4_stalemate_as_loss :
    (∀ (board : Board) (player : Player),
      getPlayerPieces board (getOpponent player) ≠ [] →
      getPlayerPieces board player ≠ [] →
      getAllValidMoves board player = [] →
      checkGameEnd board player = ⟨true, some (getOpponent player)⟩) ∧
    (∀ (board : Board) (player : Player),
      (checkGameEnd board player).ended = true →
      (checkGameEnd board player).winner ≠ none) := by
  constructor
  · intro board player hopp _ hmoves
    rw [checkGameEnd]
    rw [if_neg (by simpa [List.length_eq_zero] using hopp)]
    rw [if_pos (by simp [hmoves])]
  · intro board player
    rw [checkGameEnd]
    split
    · intro _
      simp
    · split
      · intro _
        simp
      · intro h
        cases h

/-! ### Claim C7: the coordinator's move guards -/

/-- The amended claim C7: the `make-move` handler is guarded only by room
existence and by the sender-derived turn check — a move for an unknown
room id is a silent no-op (no state change, no events), and a move whose
sender-derived color (host = white, anyone else = black) does not match
the room's side-to-move is rejected with a single error event to the
sender and the room store left unchanged.  The handler does **not** check
that the room status is `playing` (see the counterexample). -/
theorem C7_move_guards :
    (∀ (rooms : List (String × RoomState)) (socketId roomId : String) (move : Move),
      Server.lookupRoom rooms roomId = none →
      Server.handleMakeMove rooms socketId roomId move = (rooms, [])) ∧
    (∀ (rooms : List (String × RoomState)) (socketId roomId : String) (move : Move)
      (room : RoomState),
      Server.lookupRoom rooms roomId = some room →
      room.currentPlayer ≠ (if room.hostId = socketId then Player.white else Player.black) →
      Server.handleMakeMove rooms socketId roomId move =
        (rooms, [Server.ServerEvent.roomError socketId Server.wrongTurnMessage])) := by
  constructor
  · intro rooms socketId roomId move hnone
    rw [Server.handleMakeMove, hnone]
  · intro rooms socketId roomId move room hsome hturn
    rw [Server.handleMakeMove, hsome]
    simp only []
    rw [if_pos hturn]

/-! ### Concrete boards, rooms and moves used by the witnesses -/

/-- A board containing exactly the listed pieces. -/
def boardOfList (l : List (Position × Piece)) : Board := fun q =>
  (l.find? fun e => decide (e.1 = q)).map fun e => e.2

/-- White pawn at (2,3), black pawn at (3,4): white has one capture. -/
def wb1 : Board := boardOfList
  [(⟨2, 3⟩, ⟨Player.white, PieceType.pawn⟩), (⟨3, 4⟩, ⟨Player.black, PieceType.pawn⟩)]

/-- The only legal white move on `wb1`. -/
def mv1 : Move := ⟨⟨2, 3⟩, ⟨4, 5⟩, [⟨3, 4⟩], false⟩

/-- White pawn at (5,2), black pawns at (6,3) and (6,5): the white pawn
jumps (6,3), promotes on (7,4), and must continue capturing as a king. -/
def cb5 : Board := boardOfList
  [(⟨5, 2⟩, ⟨Player.white, PieceType.pawn⟩), (⟨6, 3⟩, ⟨Player.black, PieceType.pawn⟩),
   (⟨6, 5⟩, ⟨Player.black, PieceType.pawn⟩)]

/-- A maximal chain on `cb5`: promotes mid-chain, lands on row 5. -/
def mv5 : Move := ⟨⟨5, 2⟩, ⟨5, 6⟩, [⟨6, 3⟩, ⟨6, 5⟩], true⟩

/-- White pawns at (6,1), (7,0), (7,2) and a far black pawn at (0,1):
white still has pieces but not a single legal move. -/
def blockedBoard2 : Board := boardOfList
  [(⟨6, 1⟩, ⟨Player.white, PieceType.pawn⟩), (⟨7, 0⟩, ⟨Player.white, PieceType.pawn⟩),
   (⟨7, 2⟩, ⟨Player.white, PieceType.pawn⟩), (⟨0, 1⟩, ⟨Player.black, PieceType.pawn⟩)]

/-- A lone white pawn at (0,7): exactly one legal move. -/
def sb6 : Board := boardOfList [(⟨0, 7⟩, ⟨Player.white, PieceType.pawn⟩)]

/-- The single legal white move on `sb6`. -/
def mv6 : Move := ⟨⟨0, 7⟩, ⟨1, 6⟩, [], false⟩

/-- A lone white pawn at (6,1), one step from promotion. -/
def promoBoard : Board := boardOfList [(⟨6, 1⟩, ⟨Player.white, PieceType.pawn⟩)]

/-- A promoting step on `promoBoard`. -/
def mvP : Move := ⟨⟨6, 1⟩, ⟨7, 0⟩, [], true⟩

/-- The first legal white move on the initial board (row-major order). -/
def mv10 : Move := ⟨⟨2, 1⟩, ⟨3, 0⟩, [], false⟩

/-- A freshly created server room, still `waiting` for a guest. -/
def room0 : RoomState :=
  { id := "R", name := "sala", hostId := "h", hostName := "host",
    guestId := none, guestName := none, status := RoomStatus.waiting,
    board := Server.createInitialBoard, currentPlayer := Player.white,
    capturedWhite := 0, capturedBlack := 0 }

/-- A room store holding only `room0`. -/
def rooms0 : List (String × RoomState) := [("R", room0)]

/-- A white move on the server's own board orientation. -/
def mv7 : Move := ⟨⟨5, 0⟩, ⟨4, 1⟩, [], false⟩

/-! ### Witnesses and counterexamples -/

/-- Witness for claim C1 at a concrete board with a capture available. -/
theorem C1_mandatory_capture_witness :
    captureAvailable wb1 Player.white = true ∧
    ∀ m ∈ getAllValidMoves wb1 Player.white, m.captures ≠ [] :=
  ⟨by decide, C1_mandatory_capture wb1 Player.white (by decide)⟩

/-- Witness for claim C2 at a concrete board with a two-capture chain. -/
theorem C2_maximal_capture_witness :
    mv5.captures.length = maxChainLength cb5 Player.white ∧
    mv5 ∈ getAllValidMoves cb5 Player.white :=
  ⟨(C2_maximal_capture cb5 Player.white).1 mv5 (by decide) (by decide),
   (C2_maximal_capture cb5 Player.white).2 mv5 (by decide) (by decide)⟩

/-- Witness for claim C3 at a concrete capture. -/
theorem C3_piece_count_witness :
    totalPieceCount (executeMove wb1 mv1) = totalPieceCount wb1 - mv1.captures.length ∧
    totalPieceCount (executeMove wb1 mv1) ≤ totalPieceCount wb1 :=
  C3_piece_count wb1 Player.white mv1 (by decide)

/-- Counterexample to claim C4 as stated: on a board where white still has
pieces but no legal moves, the Session Coordinator's own `checkGameEnd`
reports the game as not ended (it never detects stalemate), contradicting
the claim for the evaluator "re-run … by the Session Coordinator". -/
theorem C4_counterexample :
    getPlayerPieces blockedBoard2 Player.white ≠ [] ∧
    getAllValidMoves blockedBoard2 Player.white = [] ∧
    Server.checkGameEnd blockedBoard2 Player.white = ⟨false, none⟩ := by decide

/-- Witness for the amended claim C4 at a concrete blocked board. -/
theorem C4_stalemate_as_loss_witness :
    checkGameEnd blockedBoard2 Player.white = ⟨true, some (getOpponent Player.white)⟩ ∧
    (checkGameEnd blockedBoard2 Player.white).winner ≠ none :=
  ⟨C4_stalemate_as_loss.1 blockedBoard2 Player.white (by decide) (by decide) (by decide),
   C4_stalemate_as_loss.2 blockedBoard2 Player.white (by decide)⟩

/-- Counterexample to claim C5 as stated: `getAllValidMoves` returns a
pawn move with `isPromotion = true` whose landing square is *not* the
pawn's farthest rank (the pawn promotes mid-chain and continues as a
king), so "no other returned move has promotion = true" fails. -/
theorem C5_counterexample :
    mv5 ∈ getAllValidMoves cb5 Player.white ∧
    mv5.isPromotion = true ∧
    getPieceAt cb5 mv5.«from» = some ⟨Player.white, PieceType.pawn⟩ ∧
    shouldPromote mv5.«to» Player.white = false := by decide

/-- Witness for the amended claim C5 at a concrete promoting step. -/
theorem C5_promotion_flag_witness :
    mvP.isPromotion = true ∧ mvP ∈ getAllValidMoves promoBoard Player.white :=
  ⟨(C5_promotion_flag promoBoard Player.white mvP (by decide)
      ⟨Player.white, PieceType.pawn⟩ (by decide)).1 rfl (by decide), by decide⟩

/-- Witness for claim C6 on a board with a single legal move. -/
theorem C6_alphabeta_soundness_witness :
    mv6 ∈ getAllValidMoves sb6 Player.white ∧
    ∀ m' ∈ getAllValidMoves sb6 Player.white,
      XInt.le
        (plainMinimax (DIFFICULTY_DEPTH AIDifficulty.medium - 1) (executeMove sb6 m')
          false Player.white (getOpponent Player.white))
        (plainMinimax (DIFFICULTY_DEPTH AIDifficulty.medium - 1) (executeMove sb6 mv6)
          false Player.white (getOpponent Player.white)) :=
  C6_alphabeta_soundness sb6 Player.white AIDifficulty.medium 0 1 0 1 mv6
    (by decide) (by decide)

/-- Counterexample to claim C7 as stated: in a room still in `waiting`
status (no guest yet), a host-sent move is *not* rejected — the handler
applies it: the side to move flips to black, an event is emitted, and the
moved-from square is emptied.  The `make-move` handler never checks the
room status. -/
theorem C7_counterexample :
    room0.status = RoomStatus.waiting ∧
    ((Server.handleMakeMove rooms0 "h" "R" mv7).1.map fun e => e.2.currentPlayer) =
      [Player.black] ∧
    (Server.handleMakeMove rooms0 "h" "R" mv7).2.length = 1 ∧
    ((Server.lookupRoom (Server.handleMakeMove rooms0 "h" "R" mv7).1 "R").map
      fun r => r.board ⟨5, 0⟩) = some none ∧
    room0.board ⟨5, 0⟩ = some ⟨Player.white, PieceType.pawn⟩ := by decide

/-- Witness for the amended claim C7: a move to an unknown room id is a
silent no-op, and a wrong-turn move only produces an error to the sender. -/
theorem C7_move_guards_witness :
    Server.handleMakeMove rooms0 "x" "NOPE" mv7 = (rooms0, []) ∧
    Server.handleMakeMove rooms0 "g" "R" mv7 =
      (rooms0, [Server.ServerEvent.roomError "g" Server.wrongTurnMessage]) :=
  ⟨C7_move_guards.1 rooms0 "x" "NOPE" mv7 rfl,
   C7_move_guards.2 rooms0 "g" "R" mv7 room0 rfl (by decide)⟩

/-- Counterexample to claim C8 as stated: on a board where white still
owns pieces (but they are all blocked), `getBestMove` returns `none`. -/
theorem C8_counterexample :
    getPlayerPieces blockedBoard2 Player.white ≠ [] ∧
    getBestMove blockedBoard2 Player.white AIDifficulty.hard 0 1 0 1 = none := by decide

/-- Witness for the amended claim C8 at a concrete blocked board. -/
theorem C8_bestmove_none_iff_witness :
    getBestMove blockedBoard2 Player.white AIDifficulty.hard 0 1 0 1 = none ↔
      getAllValidMoves blockedBoard2 Player.white = [] :=
  C8_bestmove_none_iff blockedBoard2 Player.white AIDifficulty.hard 0 1 0 1 (by decide)

/-- Witness for claim C9: the initial board and one applied move. -/
theorem C9_dark_squares_witness :
    lightSquaresEmpty createInitialBoard ∧
    lightSquaresEmpty (executeMove createInitialBoard mv10) :=
  ⟨C9_dark_squares.1,
   C9_dark_squares.2 createInitialBoard Player.white mv10 C9_dark_squares.1 (by decide)⟩

/-- Witness for claim C10 on the initial board, easy tier, random branch
taken (second draw 0 < 0.3, first draw 0 picks index 0). -/
theorem C10_ai_legal_witness :
    mv10 ∈ getAllValidMoves createInitialBoard Player.white :=
  C10_ai_legal createInitialBoard Player.white AIDifficulty.easy 0 1 0 1 mv10
    (by decide) (by decide)

end Damas
